import Mathlib

/-!
Verification of the edge-adaptive LSB-matching steganography core
(`advanced` package: advanced.go, cost.go, lsb_matching.go).

Modelling conventions (shallow embedding):

* 8-bit channel values are `ℕ` (Go `byte`); where Go's fixed width matters
  the code below takes it mod 2^k explicitly.
* `float64` embedding costs.  Every cost the code ever stores is one of
  - `0.0` (the zero value a fresh Go `[]float64` starts with),
  - `1.0 / (math.Sqrt(gx*gx+gy*gy) + epsilon)` for an interior pixel, where
    `gx`, `gy` are integer-valued Sobel sums (exactly representable in
    float64, |gx|,|gy| ≤ 2040), or
  - `math.MaxFloat64` for a border pixel.
  For `g = gx²+gy² ≤ 2·2040²` consecutive square roots differ by at least
  `1/(2·2886) > 1.7e-4`, while every float64 rounding step on these
  magnitudes errs by less than `1e-10`, so `g ↦ fl(1/(fl(fl(√g))+1e-6))` is
  strictly decreasing in `g`, positive, and strictly below `MaxFloat64`.
  The inductive type `Cost` below is therefore an exact, executable model of
  the stored doubles together with their `<` order: `Cost.fin g` stands for
  the double `1/(√g+ε)`, `Cost.inf` for `math.MaxFloat64`, `Cost.zero` for
  `0.0`.
* `sort.Slice` is embedded as Go's pdqsort (`src/sort/zsortfunc.go`,
  Go ≥ 1.19), translated function by function with explicit fuel; the fuel
  supplied by the top-level entry point is always sufficient, so the model
  computes exactly what the Go code computes.
* `crypto/rand.Read` outcomes are passed in as an oracle
  `rng : ℕ → Option ℕ` giving the byte produced by the k-th successful or
  failed read (`none` = the read returns an error).
* PNG/JPEG codecs are external collaborators (spec §1): encoding yields the
  in-memory RGBA raster that `png.Encode` would serialize losslessly, and
  decoding starts from the parsed raster.
-/

/-- An RGBA pixel as produced by `getImageAsRGBA` (Go `color.RGBA`). -/
structure RGBA where
  r : ℕ
  g : ℕ
  b : ℕ
  a : ℕ
deriving DecidableEq, Repr

/-- An in-memory `image.RGBA` raster with bounds `[0,width) × [0,height)`:
`pixels` is the flat row-major pixel array (Go's `Pix`, four bytes per
pixel, here one `RGBA` record per pixel). -/
structure Image where
  width : ℕ
  height : ℕ
  pixels : List RGBA
deriving DecidableEq

/-- Go `img.RGBAAt(x, y)`: Go returns the zero pixel out of bounds. -/
def Image.pix (img : Image) (x y : ℕ) : RGBA :=
  if x < img.width ∧ y < img.height then
    img.pixels.getD (y * img.width + x) ⟨0, 0, 0, 0⟩
  else ⟨0, 0, 0, 0⟩

/-- Exact model of the float64 embedding costs stored by `CalculateCosts`
(see the header comment): `zero` is Go's `0.0` slice zero value, `fin g`
is the double `1.0/(math.Sqrt g + epsilon)` for the integer `g = gx²+gy²`,
and `inf` is `math.MaxFloat64`. -/
inductive Cost where
  | zero : Cost
  | fin : ℤ → Cost
  | inf : Cost
deriving DecidableEq, Repr

namespace Cost

/-- The float64 `<` on the represented doubles: `0.0` is below every
represented positive value, `1/(√g+ε)` is strictly decreasing in `g`, and
`math.MaxFloat64` is above every interior cost. -/
def blt : Cost → Cost → Bool
  | zero, zero => false
  | zero, fin _ => true
  | zero, inf => true
  | fin _, zero => false
  | fin g, fin g' => decide (g' < g)
  | fin _, inf => true
  | inf, _ => false

end Cost

/-- Go struct `pixelCost` (lsb_matching.go): a flat pixel index paired with
its embedding cost. -/
structure pixelCost where
  pos : ℕ
  cost : Cost
deriving DecidableEq, Repr

instance : Inhabited pixelCost := ⟨⟨0, Cost.zero⟩⟩

/-! ### Indexed list primitives used by the sort embedding -/

/-- Read a slice element (always called in range). -/
def lget (d : List pixelCost) (i : ℕ) : pixelCost := d.getD i default

/-- Go `data.Swap(i, j)`.  The Go code would panic out of range; every call the
sort performs is in range, and the guard makes the out-of-range case (never
reached) a no-op so that permutation lemmas need no side conditions. -/
def lswap (d : List pixelCost) (i j : ℕ) : List pixelCost :=
  if i < d.length ∧ j < d.length then
    (d.set i (lget d j)).set j (lget d i)
  else d

/-- Go `less(i, j)` closure passed to `sort.Slice`:
`allPixelCosts[i].cost < allPixelCosts[j].cost`. -/
def costLess (d : List pixelCost) (i j : ℕ) : Bool :=
  (lget d i).cost.blt (lget d j).cost

namespace GoSort

/-! Embedding of Go's `sort.Slice` = pdqsort (`src/sort/zsortfunc.go`,
Go ≥ 1.19).  Loops become fuel-indexed structural recursions; each
function's fuel argument is chosen by its caller to dominate the loop's
iteration count, so the embedding computes the Go result exactly. -/

/-- Structural helper for `bitsLen`: repeated halving with fuel. -/
def bitsLenGo : ℕ → ℕ → ℕ
  | 0, _ => 0
  | fuel + 1, n => if n = 0 then 0 else bitsLenGo fuel (n / 2) + 1

/-- Go `bits.Len` (number of bits needed to represent `n`); fuel `n + 1`
dominates the number of halvings. -/
def bitsLen (n : ℕ) : ℕ := bitsLenGo (n + 1) n

/-- Go `nextPowerOfTwo(length) = 1 << bits.Len(uint(length))`. -/
def nextPowerOfTwo (n : ℕ) : ℕ := 2 ^ bitsLen n

/-- The xorshift step of Go's `sort` package RNG used by `breakPatterns`:
`*r ^= *r << 13; *r ^= *r >> 7; *r ^= *r << 17` on `uint64`. -/
def xorshiftNext (r : ℕ) : ℕ :=
  let r1 := (r ^^^ (r <<< 13)) % 2 ^ 64
  let r2 := (r1 ^^^ (r1 >>> 7)) % 2 ^ 64
  (r2 ^^^ (r2 <<< 17)) % 2 ^ 64

/-- Go `insertionSort_func` inner loop:
`for j := i; j > a && data.Less(j, j-1); j-- { data.Swap(j, j-1) }`. -/
def insertInner (a : ℕ) : ℕ → List pixelCost → List pixelCost
  | 0, d => d
  | j + 1, d =>
    if a < j + 1 ∧ costLess d (j + 1) j then
      insertInner a j (lswap d (j + 1) j)
    else d

/-- Go `insertionSort_func` outer loop over `i = a+1 … b-1`, driven by fuel
(the caller passes fuel ≥ the number of iterations). -/
def insertionLoop (a b : ℕ) : ℕ → ℕ → List pixelCost → List pixelCost
  | 0, _, d => d
  | fuel + 1, i, d =>
    if i < b then insertionLoop a b fuel (i + 1) (insertInner a i d)
    else d

/-- Go `insertionSort_func(data, a, b)`. -/
def insertionSort (a b : ℕ) (d : List pixelCost) : List pixelCost :=
  insertionLoop a b b (a + 1) d

/-- Go `siftDown_func` main loop; the root at least doubles every iteration, so
fuel `hi` dominates the iteration count. -/
def siftDownLoop (hi first : ℕ) : ℕ → ℕ → List pixelCost → List pixelCost
  | 0, _, d => d
  | fuel + 1, root, d =>
    let child0 := 2 * root + 1
    if hi ≤ child0 then d
    else
      let child :=
        if child0 + 1 < hi ∧ costLess d (first + child0) (first + child0 + 1) then
          child0 + 1
        else child0
      if ¬ (costLess d (first + root) (first + child) = true) then d
      else siftDownLoop hi first fuel child (lswap d (first + root) (first + child))

/-- Go `siftDown_func(data, lo, hi, first)`. -/
def siftDown (lo hi first : ℕ) (d : List pixelCost) : List pixelCost :=
  siftDownLoop hi first hi lo d

/-- Go `heapSort_func` build phase: `for i := (hi-1)/2; i >= 0; i--`, encoded
with the count `i+1` of remaining iterations. -/
def heapBuild (hi first : ℕ) : ℕ → List pixelCost → List pixelCost
  | 0, d => d
  | i + 1, d => heapBuild hi first i (siftDown i hi first d)

/-- Go `heapSort_func` extract phase:
`for i := hi-1; i >= 0; i-- { Swap(first, first+i); siftDown(lo, i, first) }`. -/
def heapExtract (first : ℕ) : ℕ → List pixelCost → List pixelCost
  | 0, d => d
  | i + 1, d => heapExtract first i (siftDown 0 i first (lswap d first (first + i)))

/-- Go `heapSort_func(data, a, b)`. -/
def heapSort (a b : ℕ) (d : List pixelCost) : List pixelCost :=
  heapExtract a (b - a) (heapBuild (b - a) a ((b - a - 1) / 2 + 1) d)

/-- Go `reverseRange_func(data, a, b)` loop. -/
def reverseRangeLoop : ℕ → ℕ → ℕ → List pixelCost → List pixelCost
  | 0, _, _, d => d
  | fuel + 1, i, j, d =>
    if i < j then reverseRangeLoop fuel (i + 1) (j - 1) (lswap d i j) else d

/-- Go `reverseRange_func(data, a, b)`. -/
def reverseRange (a b : ℕ) (d : List pixelCost) : List pixelCost :=
  reverseRangeLoop b a (b - 1) d

/-- Go `breakPatterns_func(data, a, b)`: three swaps of pivot-candidate
positions with xorshift-chosen partners (seeded with the range length). -/
def breakPatterns (a b : ℕ) (d : List pixelCost) : List pixelCost :=
  let length := b - a
  if 8 ≤ length then
    let modulus := nextPowerOfTwo length
    let idx := a + (length / 4) * 2
    let pick := fun (r : ℕ) =>
      let other := r &&& (modulus - 1)
      if length ≤ other then other - length else other
    let r1 := xorshiftNext (length % 2 ^ 64)
    let r2 := xorshiftNext r1
    let r3 := xorshiftNext r2
    let d := lswap d (idx - 1) (a + pick r1)
    let d := lswap d idx (a + pick r2)
    lswap d (idx + 1) (a + pick r3)
  else d

/-- The sortedness hints returned by `choosePivot_func`. -/
inductive Hint where
  | increasing : Hint
  | decreasing : Hint
  | unknown : Hint
deriving DecidableEq, Repr

/-- Go `order2_func(data, a, b, &swaps)`. -/
def order2 (d : List pixelCost) (a b swaps : ℕ) : ℕ × ℕ × ℕ :=
  if costLess d b a then (b, a, swaps + 1) else (a, b, swaps)

/-- Go `median_func(data, a, b, c, &swaps)`: median index of three. -/
def median (d : List pixelCost) (a b c swaps : ℕ) : ℕ × ℕ :=
  let (a1, b1, s1) := order2 d a b swaps
  let (b2, _, s2) := order2 d b1 c s1
  let (_, b3, s3) := order2 d a1 b2 s2
  (b3, s3)

/-- Go `medianAdjacent_func(data, a, &swaps)`. -/
def medianAdjacent (d : List pixelCost) (a swaps : ℕ) : ℕ × ℕ :=
  median d (a - 1) a (a + 1) swaps

/-- Convert the swap count of `choosePivot_func` into a hint
(`maxSwaps = 12`). -/
def hintOf (swaps : ℕ) : Hint :=
  if swaps = 0 then Hint.increasing
  else if swaps = 12 then Hint.decreasing
  else Hint.unknown

/-- Go `choosePivot_func(data, a, b)` (`shortestNinther = 50`). -/
def choosePivot (d : List pixelCost) (a b : ℕ) : ℕ × Hint :=
  let l := b - a
  let i := a + l / 4 * 1
  let j := a + l / 4 * 2
  let k := a + l / 4 * 3
  if 8 ≤ l then
    if 50 ≤ l then
      let (i1, s1) := medianAdjacent d i 0
      let (j1, s2) := medianAdjacent d j s1
      let (k1, s3) := medianAdjacent d k s2
      let (j2, s4) := median d i1 j1 k1 s3
      (j2, hintOf s4)
    else
      let (j1, s1) := median d i j k 0
      (j1, hintOf s1)
  else (j, hintOf 0)

/-- Go `partialInsertionSort_func` forward scan:
`for i < b && !data.Less(i, i-1) { i++ }` (no mutation, returns `i`). -/
def pisScan (d : List pixelCost) (b : ℕ) : ℕ → ℕ → ℕ
  | 0, i => i
  | fuel + 1, i =>
    if i < b ∧ ¬ (costLess d i (i - 1) = true) then pisScan d b fuel (i + 1) else i

/-- Go `partialInsertionSort_func` left shift:
`for j := i-1; j >= 1; j-- { if !Less(j, j-1) break; Swap(j, j-1) }`,
encoded on the current value of `j`. -/
def shiftLeft : ℕ → List pixelCost → List pixelCost
  | 0, d => d
  | j + 1, d =>
    if costLess d (j + 1) j then shiftLeft j (lswap d (j + 1) j) else d

/-- Go `partialInsertionSort_func` right shift:
`for j := i+1; j < b; j++ { if !Less(j, j-1) break; Swap(j, j-1) }`. -/
def shiftRight (b : ℕ) : ℕ → ℕ → List pixelCost → List pixelCost
  | 0, _, d => d
  | fuel + 1, j, d =>
    if j < b ∧ costLess d j (j - 1) then shiftRight b fuel (j + 1) (lswap d j (j - 1))
    else d

/-- Go `partialInsertionSort_func` main loop (`maxSteps = 5`,
`shortestShifting = 50`); returns Go's boolean result with the data. -/
def pisLoop (a b : ℕ) : ℕ → ℕ → List pixelCost → Bool × List pixelCost
  | 0, _, d => (false, d)
  | steps + 1, i, d =>
    let i := pisScan d b b i
    if i = b then (true, d)
    else if b - a < 50 then (false, d)
    else
      let d := lswap d i (i - 1)
      let d := if 2 ≤ i - a then shiftLeft (i - 1) d else d
      let d := if 2 ≤ b - i then shiftRight b b (i + 1) d else d
      pisLoop a b steps i d

/-- Go `partialInsertionSort_func(data, a, b)`. -/
def partialInsertionSort (a b : ℕ) (d : List pixelCost) : Bool × List pixelCost :=
  pisLoop a b 5 (a + 1) d

/-- Go `partitionEqual_func` upward scan:
`for i <= j && !data.Less(pivot, i) { i++ }` (pivot sits at index `a`). -/
def peqScanI (d : List pixelCost) (a j : ℕ) : ℕ → ℕ → ℕ
  | 0, i => i
  | fuel + 1, i =>
    if i ≤ j ∧ ¬ (costLess d a i = true) then peqScanI d a j fuel (i + 1) else i

/-- Go `partitionEqual_func` downward scan:
`for i <= j && data.Less(pivot, j) { j-- }`. -/
def peqScanJ (d : List pixelCost) (a i : ℕ) : ℕ → ℕ → ℕ
  | 0, j => j
  | fuel + 1, j =>
    if i ≤ j ∧ costLess d a j then peqScanJ d a i fuel (j - 1) else j

/-- Go `partitionEqual_func` swap loop; returns Go's `i` with the data. -/
def partitionEqualLoop (a b : ℕ) : ℕ → ℕ → ℕ → List pixelCost → ℕ × List pixelCost
  | 0, i, _, d => (i, d)
  | fuel + 1, i, j, d =>
    let i := peqScanI d a j b i
    let j := peqScanJ d a i b j
    if j < i then (i, d)
    else partitionEqualLoop a b fuel (i + 1) (j - 1) (lswap d i j)

/-- Go `partitionEqual_func(data, a, b, pivot)`. -/
def partitionEqual (a b pivot : ℕ) (d : List pixelCost) : ℕ × List pixelCost :=
  partitionEqualLoop a b b (a + 1) (b - 1) (lswap d a pivot)

/-- Go `partition_func` upward scan: `for i <= j && data.Less(i, a) { i++ }`. -/
def partScanI (d : List pixelCost) (a j : ℕ) : ℕ → ℕ → ℕ
  | 0, i => i
  | fuel + 1, i =>
    if i ≤ j ∧ costLess d i a then partScanI d a j fuel (i + 1) else i

/-- Go `partition_func` downward scan: `for i <= j && !data.Less(j, a) { j-- }`. -/
def partScanJ (d : List pixelCost) (a i : ℕ) : ℕ → ℕ → ℕ
  | 0, j => j
  | fuel + 1, j =>
    if i ≤ j ∧ ¬ (costLess d j a = true) then partScanJ d a i fuel (j - 1) else j

/-- Go `partition_func` swap loop; returns Go's final `j` with the data. -/
def partitionLoop (a b : ℕ) : ℕ → ℕ → ℕ → List pixelCost → ℕ × List pixelCost
  | 0, _, j, d => (j, d)
  | fuel + 1, i, j, d =>
    let i := partScanI d a j b i
    let j := partScanJ d a i b j
    if j < i then (j, d)
    else partitionLoop a b fuel (i + 1) (j - 1) (lswap d i j)

/-- Go `partition_func(data, a, b, pivot)`: returns
`(newpivot, alreadyPartitioned)` with the data. -/
def partition (a b pivot : ℕ) (d : List pixelCost) :
    (ℕ × Bool) × List pixelCost :=
  let d := lswap d a pivot
  let i := partScanI d a (b - 1) b (a + 1)
  let j := partScanJ d a i b (b - 1)
  if j < i then ((j, true), lswap d j a)
  else
    let d := lswap d i j
    let (jf, d) := partitionLoop a b b (i + 1) (j - 1) d
    ((jf, false), lswap d jf a)

/-- Go `pdqsort_func(data, a, b, limit)`.  The fuel argument dominates the
combined loop/recursion depth: every loop iteration and every recursive
call strictly shrinks `b - a`, so fuel `length + 1` always suffices.
`wasBalanced` and `wasPartitioned` are the loop-local state (reset to
`true` by every recursive call, as in Go where they are locals). -/
def pdqsortRec : ℕ → ℕ → ℕ → ℕ → Bool → Bool → List pixelCost → List pixelCost
  | 0, _, _, _, _, _, d => d
  | fuel + 1, a, b, limit, wasBalanced, wasPartitioned, d =>
    let length := b - a
    if length ≤ 12 then insertionSort a b d
    else if limit = 0 then heapSort a b d
    else
      let d1 := if ¬ wasBalanced then breakPatterns a b d else d
      let limit1 := if ¬ wasBalanced then limit - 1 else limit
      let pv := choosePivot d1 a b
      let dec := pv.2 = Hint.decreasing
      let d2 := if dec then reverseRange a b d1 else d1
      let pivot := if dec then (b - 1) - (pv.1 - a) else pv.1
      let hint := if dec then Hint.increasing else pv.2
      let pis :=
        if wasBalanced ∧ wasPartitioned ∧ hint = Hint.increasing then
          partialInsertionSort a b d2
        else (false, d2)
      if pis.1 then pis.2
      else if 0 < a ∧ ¬ (costLess pis.2 (a - 1) pivot = true) then
        let pe := partitionEqual a b pivot pis.2
        pdqsortRec fuel pe.1 b limit1 wasBalanced wasPartitioned pe.2
      else
        let pr := partition a b pivot pis.2
        let mid := pr.1.1
        let wasBalanced1 := length / 8 ≤ min (mid - a) (b - mid)
        if mid - a < b - mid then
          pdqsortRec fuel (mid + 1) b limit1 wasBalanced1 pr.1.2
            (pdqsortRec fuel a mid limit1 true true pr.2)
        else
          pdqsortRec fuel a mid limit1 wasBalanced1 pr.1.2
            (pdqsortRec fuel (mid + 1) b limit1 true true pr.2)

/-- Go `sort.Slice(allPixelCosts, func(i, j int) bool { return
allPixelCosts[i].cost < allPixelCosts[j].cost })`: pdqsort over the whole
slice with `limit = bits.Len(uint(length))`. -/
def sortSlice (d : List pixelCost) : List pixelCost :=
  pdqsortRec (d.length + 1) 0 d.length (bitsLen d.length) true true d

end GoSort

/-! ### Cost map (cost.go) -/

/-- Go `getChannelValue(img, x, y, channel)`: reads the requested channel,
defaulting to Green on an invalid channel index.  (Go converts the byte to
float64; the conversion is exact, so the byte itself is the model.) -/
def getChannelValue (img : Image) (x y channel : ℕ) : ℕ :=
  let c := img.pix x y
  match channel with
  | 0 => c.r
  | 1 => c.g
  | 2 => c.b
  | _ => c.g

/-- The `sobelX` kernel of `CalculateCosts`, indexed `[i+1][j+1]` where `i`
is the x-offset and `j` the y-offset, exactly as the source indexes it. -/
def sobelX : ℕ → ℕ → ℤ
  | 0, 0 => -1 | 0, 1 => 0 | 0, 2 => 1
  | 1, 0 => -2 | 1, 1 => 0 | 1, 2 => 2
  | 2, 0 => -1 | 2, 1 => 0 | 2, 2 => 1
  | _, _ => 0

/-- The `sobelY` kernel of `CalculateCosts`. -/
def sobelY : ℕ → ℕ → ℤ
  | 0, 0 => -1 | 0, 1 => -2 | 0, 2 => -1
  | 1, 0 => 0 | 1, 1 => 0 | 1, 2 => 0
  | 2, 0 => 1 | 2, 1 => 2 | 2, 2 => 1
  | _, _ => 0

/-- The `gx` accumulation of `CalculateCosts` at an interior pixel
(`x, y ≥ 1`): `gx += getChannelValue(img, x+i, y+j) * sobelX[i+1][j+1]`,
folded in the source's `i` then `j` order.  Sums of integers are exact in
float64 at these magnitudes, so `ℤ` is a faithful carrier. -/
def gxAt (img : Image) (channel x y : ℕ) : ℤ :=
  (List.range 3).foldl
    (fun acc i =>
      (List.range 3).foldl
        (fun acc j =>
          acc + (getChannelValue img (x + i - 1) (y + j - 1) channel : ℤ) * sobelX i j)
        acc)
    0

/-- The `gy` accumulation of `CalculateCosts` at an interior pixel. -/
def gyAt (img : Image) (channel x y : ℕ) : ℤ :=
  (List.range 3).foldl
    (fun acc i =>
      (List.range 3).foldl
        (fun acc j =>
          acc + (getChannelValue img (x + i - 1) (y + j - 1) channel : ℤ) * sobelY i j)
        acc)
    0

/-- Go `gx*gx + gy*gy`, the squared gradient magnitude before the square
root; the float64 cost `1/(√(gradSq)+ε)` is strictly decreasing in this
integer, which is what `Cost.fin` records. -/
def gradSq (img : Image) (channel x y : ℕ) : ℤ :=
  gxAt img channel x y * gxAt img channel x y +
    gyAt img channel x y * gyAt img channel x y

/-- Go struct `CostMap` (cost.go): `costs` in the same row-major layout,
`Get(x,y) = costs[y*width+x]`. -/
structure CostMap where
  width : ℕ
  height : ℕ
  costs : ℕ → Cost

/-- Go `(c *CostMap).Get(x, y)`. -/
def CostMap.get (c : CostMap) (x y : ℕ) : Cost := c.costs (y * c.width + x)

/-- Go `CalculateCosts(img, channel)`.  The source fills the map imperatively:
the interior double loop writes exactly the cells with
`1 ≤ x ≤ width-2, 1 ≤ y ≤ height-2`, and the two border loops then write
exactly the cells with `x ∈ {0, width-1}` or `y ∈ {0, height-1}`.  The two
write sets are disjoint and together cover every cell, each cell being
written one final value (corners are written `MaxFloat64` repeatedly), so
the resulting array is this pointwise map; the `0.0` slice zero value never
survives.  Each loop reads only `img`, never the half-written map. -/
def CalculateCosts (img : Image) (channel : ℕ) : CostMap :=
  let width := img.width
  let height := img.height
  { width := width, height := height,
    costs := fun idx =>
      let x := idx % width
      let y := idx / width
      if x = 0 ∨ x = width - 1 ∨ y = 0 ∨ y = height - 1 then Cost.inf
      else Cost.fin (gradSq img channel x y) }

/-! ### LSB matching (lsb_matching.go) -/

/-- Go `LSBMatchingEmbed(pixel, bit, cost)`.  `rand` is the outcome of the
single `crypto/rand.Read` the function performs when the LSB differs:
`none` models a failed read (the deterministic `+1` fallback), `some r`
a successful read of byte `r`. -/
def LSBMatchingEmbed (pixel bit : ℕ) (cost : Cost) (rand : Option ℕ) :
    ℕ × Cost :=
  let currentLSB := pixel % 2
  if currentLSB = bit then (pixel, Cost.zero)
  else
    match rand with
    | none =>
      if pixel = 255 then (pixel - 1, cost) else (pixel + 1, cost)
    | some r =>
      let addOne := r % 2 = 1
      if addOne then
        if pixel = 255 then (pixel - 1, cost) else (pixel + 1, cost)
      else
        if pixel = 0 then (pixel + 1, cost) else (pixel - 1, cost)

/-- One iteration of the embedding loop of `GetOptimalChanges`: state is
`(result, ctr)` where `ctr` counts the `rand.Read` calls made so far (a
read happens exactly when the pixel's LSB differs from the bit). -/
def embedStep (imgPx message : List ℕ) (apc : List pixelCost) (costs : ℕ → Cost)
    (rng : ℕ → Option ℕ) (bitIndex : ℕ) : List ℕ × ℕ → List ℕ × ℕ :=
  fun st =>
    let pixelPos := (lget apc bitIndex).pos
    let byteIndex := bitIndex / 8
    let bitOffset := bitIndex % 8
    let bitToEmbed := message.getD byteIndex 0 / 2 ^ (7 - bitOffset) % 2
    let p := imgPx.getD pixelPos 0
    let newPix := (LSBMatchingEmbed p bitToEmbed (costs pixelPos) (rng st.2)).1
    (st.1.set pixelPos newPix, if p % 2 = bitToEmbed then st.2 else st.2 + 1)

/-- The embedding loop of `GetOptimalChanges`, processing `count` bit
indices starting at `k`. -/
def embedLoop (imgPx message : List ℕ) (apc : List pixelCost) (costs : ℕ → Cost)
    (rng : ℕ → Option ℕ) : ℕ → ℕ → List ℕ × ℕ → List ℕ × ℕ
  | 0, _, st => st
  | count + 1, k, st =>
    embedLoop imgPx message apc costs rng count (k + 1)
      (embedStep imgPx message apc costs rng k st)

/-- The position order both encoder (`GetOptimalChanges`, steps 1-2) and
decoder (`AdvancedDecode`, steps 4-5) compute: pair every flat index with
its cost and sort with `sort.Slice` by `cost <`. -/
def orderByCost (len : ℕ) (costs : ℕ → Cost) : List pixelCost :=
  GoSort.sortSlice ((List.range len).map (fun i => pixelCost.mk i (costs i)))

/-- Go `GetOptimalChanges(img, message, costs)`: copies the pixels, returns
the copy untouched when the message needs more bits than there are pixels,
otherwise sorts all positions by cost with `sort.Slice` and embeds the
message bits into the lowest-cost positions in order.  Every
`LSBMatchingEmbed` reads the *original* `img[pixelPos]` and writes
`result[pixelPos]`, exactly as in the source. -/
def GetOptimalChanges (img message : List ℕ) (costs : CostMap)
    (rng : ℕ → Option ℕ) : List ℕ :=
  let result := img
  let messageLenBits := message.length * 8
  if img.length < messageLenBits then result
  else
    let allPixelCosts := orderByCost img.length costs.costs
    (embedLoop img message allPixelCosts costs.costs rng messageLenBits 0
      (result, 0)).1

/-! ### Framing codec: big-endian header and MSB-first bit access -/

/-- Go `binary.BigEndian.PutUint64(header, v)`: the 8 big-endian bytes. -/
def putUint64 (v : ℕ) : List ℕ :=
  (List.range 8).map (fun i => v / 2 ^ (8 * (7 - i)) % 256)

/-- Go `binary.BigEndian.Uint64(header)` on an 8-byte list. -/
def beUint64 (bytes : List ℕ) : ℕ :=
  (List.range 8).foldl (fun acc i => acc + bytes.getD i 0 * 2 ^ (8 * (7 - i))) 0

/-- Bit `k` (MSB-first within each byte) of a byte list:
`(F[k/8] >> (7 - k%8)) & 1`. -/
def bitOf (bytes : List ℕ) (k : ℕ) : ℕ :=
  bytes.getD (k / 8) 0 / 2 ^ (7 - k % 8) % 2

/-- The decoder's bit-to-byte assembly
(`if bits[i*8+j] == 1 { b |= 1 << (7-j) }`): `|=` on disjoint powers of
two is addition. -/
def byteFromBits (bits : ℕ → ℕ) (i : ℕ) : ℕ :=
  (List.range 8).foldl (fun acc j => if bits (i * 8 + j) = 1 then acc + 2 ^ (7 - j) else acc) 0

/-! ### AdvancedEncode / AdvancedDecode (advanced.go) -/

/-- The fatal errors of `AdvancedEncode` (image parsing and payload I/O are
external collaborators and start the model in parsed form). -/
inductive EncodeError where
  | capacityExceeded : EncodeError
  | unsupportedFormat : EncodeError
deriving DecidableEq, Repr

/-- The fatal outcomes of `AdvancedDecode`.  `runtimePanic` collapses the
Go runtime panics an overflowed length can cause after header validation
(`make` length out of range, out-of-range slice index, or an allocation
beyond the heap limit — the site varies with the length, the observable is
a runtime panic, never a returned error). -/
inductive DecodeError where
  | tooSmallForHeader : DecodeError
  | corruptHeader : DecodeError
  | runtimePanic : DecodeError
deriving DecidableEq, Repr

/-- Go `headerSize = 8` (advanced.go). -/
def headerSize : ℕ := 8

/-- The flat Red-channel vector both encoder and decoder build:
`pixels[idx] = img.RGBAAt(x, y).R` in row-major order (`idx = y*W + x`). -/
def flatRed (img : Image) : List ℕ :=
  (List.range (img.width * img.height)).map
    (fun i => (img.pix (i % img.width) (i / img.width)).r)

/-- Go `AdvancedEncode(carrier, data, result)`.  The carrier arrives as the
parsed RGBA raster together with the format string `image.Decode`
reported; `data` is the fully read payload; the returned image is the
raster handed to `png.Encode` (PNG is lossless, spec §1 puts the codec out
of scope).  `uint64(len(dataBytes))` is modelled with the explicit
`% 2^64` (Go slice lengths are below `2^63`, so the reduction is exact). -/
def AdvancedEncode (img : Image) (format : String) (data : List ℕ)
    (rng : ℕ → Option ℕ) : Except EncodeError Image :=
  let costs := CalculateCosts img 1
  let header := putUint64 (data.length % 2 ^ 64)
  let fullData := header ++ data
  let capacity := img.width * img.height
  if capacity < fullData.length * 8 then Except.error .capacityExceeded
  else
    let pixels := flatRed img
    let modifiedPixels := GetOptimalChanges pixels fullData costs rng
    let result_img : Image :=
      { width := img.width, height := img.height,
        pixels :=
          (List.range capacity).map (fun i =>
            let c := img.pix (i % img.width) (i / img.width)
            { r := modifiedPixels.getD i 0, g := c.g, b := c.b, a := c.a }) }
    if format = "png" ∨ format = "jpeg" then Except.ok result_img
    else Except.error .unsupportedFormat

/-- Steps 6-8 of `AdvancedDecode`: the 64-bit big-endian message length
reconstructed from the LSBs of the Red channel at the 64 cheapest
positions (MSB-first within each byte). -/
def decodedHeaderLen (img : Image) : ℕ :=
  let capacity := img.width * img.height
  let pixels := flatRed img
  let allPixelCosts := orderByCost capacity (CalculateCosts img 1).costs
  let headerBit := fun (i : ℕ) => pixels.getD (lget allPixelCosts i).pos 0 % 2
  beUint64 ((List.range headerSize).map (fun i => byteFromBits headerBit i))

/-- Go `AdvancedDecode(carrier, result)` on the parsed stego raster.  The
`uint64` length arithmetic (`totalDataBits`, `totalBits`) carries its
`% 2^64`; the three guards after header validation are the Go runtime
panics described at `DecodeError.runtimePanic`, in the order the Go code
hits them (`make([]byte, totalDataBits)`, `make([]byte, messageLength)`,
then the out-of-range `dataBits[i*8+j]` read when `8·L` overflowed). -/
def AdvancedDecode (img : Image) : Except DecodeError (List ℕ) :=
  let capacity := img.width * img.height
  let pixels := flatRed img
  let allPixelCosts := orderByCost capacity (CalculateCosts img 1).costs
  if capacity < headerSize * 8 then Except.error .tooSmallForHeader
  else
    let messageLength := decodedHeaderLen img
    let totalHeaderBits := headerSize * 8
    let totalDataBits := messageLength * 8 % 2 ^ 64
    let totalBits := (totalHeaderBits + totalDataBits) % 2 ^ 64
    if messageLength = 0 ∨ capacity < totalBits then Except.error .corruptHeader
    else if 2 ^ 63 ≤ totalDataBits then Except.error .runtimePanic
    else if 2 ^ 63 ≤ messageLength then Except.error .runtimePanic
    else if totalDataBits < messageLength * 8 then Except.error .runtimePanic
    else
      let dataBit := fun (i : ℕ) =>
        pixels.getD (lget allPixelCosts (i + totalHeaderBits)).pos 0 % 2
      Except.ok ((List.range messageLength).map (fun i => byteFromBits dataBit i))

instance {ε α : Type} [DecidableEq ε] [DecidableEq α] :
    DecidableEq (Except ε α) := fun a b =>
  match a, b with
  | .ok x, .ok y => if h : x = y then .isTrue (by rw [h]) else .isFalse (by simp [h])
  | .error x, .error y => if h : x = y then .isTrue (by rw [h]) else .isFalse (by simp [h])
  | .ok _, .error _ => .isFalse (by simp)
  | .error _, .ok _ => .isFalse (by simp)

/-! ### Spec-side interpretation of the float costs (for claim C8) -/

/-- Modelled from the spec: the gradient regularizer `epsilon = 1e-6`
(spec §6 configuration constants).  The constant is referenced by
`cost.go` but its defining declaration is not among the provided source
files. -/
noncomputable def epsilon : ℝ := 1 / 1000000

/-- The value of `math.MaxFloat64`, `2^1024 - 2^971`. -/
noncomputable def maxFloat64 : ℝ := 2 ^ 1024 - 2 ^ 971

/-- The real number each stored cost denotes (header comment): interior
costs are `1/(√(gx²+gy²) + ε)`, borders hold `math.MaxFloat64`, and the
never-surviving slice zero value is `0.0`. -/
noncomputable def Cost.toReal : Cost → ℝ
  | Cost.zero => 0
  | Cost.fin g => 1 / (Real.sqrt (g : ℝ) + epsilon)
  | Cost.inf => maxFloat64

/-- The spec's `gx` formula (§4.1):
`gx = Σᵢⱼ R̂(x+i, y+j) · Kx[i+1][j+1]`, written as a closed double sum
(indices shifted to `0..2`). -/
def gxSpec (img : Image) (channel x y : ℕ) : ℤ :=
  ∑ i ∈ Finset.range 3, ∑ j ∈ Finset.range 3,
    (getChannelValue img (x + i - 1) (y + j - 1) channel : ℤ) * sobelX i j

/-- The spec's `gy` formula (§4.1). -/
def gySpec (img : Image) (channel x y : ℕ) : ℤ :=
  ∑ i ∈ Finset.range 3, ∑ j ∈ Finset.range 3,
    (getChannelValue img (x + i - 1) (y + j - 1) channel : ℤ) * sobelY i j

/-! ### Concrete fixtures used by witnesses and counterexamples -/

/-- The always-failing random oracle: every `rand.Read` errors (the
deterministic `+1` fallback path of `LSBMatchingEmbed`). -/
def rngNone : ℕ → Option ℕ := fun _ => none

/-- A concrete successful random oracle. -/
def rngSome : ℕ → Option ℕ := fun k => some (k % 256)

/-- An 8×8 carrier (the smallest raster whose 64 pixels can hold the
64-bit header): `R = x·y mod 256`, `G = x+y mod 256`, `B = 0`, `A = 255`. -/
def imgRT : Image :=
  { width := 8, height := 8,
    pixels := (List.range 64).map
      (fun i => ⟨i % 8 * (i / 8) % 256, (i % 8 + i / 8) % 256, 0, 255⟩) }

/-- A 9×8 carrier (72 pixels = 64 + 8·1, exactly one payload byte). -/
def imgCap : Image :=
  { width := 9, height := 8,
    pixels := (List.range 72).map
      (fun i => ⟨i % 9 * (i / 9) % 256, (i % 9 + i / 9) % 256, 0, 255⟩) }

/-- A 4×4 raster with constant channels: every interior pixel has the same
(zero-gradient) cost and every border pixel the same `MaxFloat64` cost. -/
def img4const : Image :=
  { width := 4, height := 4, pixels := List.replicate 16 ⟨2, 7, 0, 255⟩ }

/-- The green pattern of the crafted stego raster `imgC6`. -/
def greensC6 : ℕ → ℕ → ℕ := fun x y => (x * x * 13 + y * 7 + x * y * 3) % 256

/-- A crafted 9×8 stego raster: the three largest interior gradients are
distinct (`470336` at index 60, `436288` at index 12, `387648` at index
52, next `361728`), so the three cheapest positions are `60, 12, 52` under
any correct sort of the costs; every Red value is even except at index 52,
making the extracted 64-bit header equal to `2^61`. -/
def imgC6 : Image :=
  { width := 9, height := 8,
    pixels := (List.range 72).map
      (fun i => ⟨if i = 52 then 1 else 0, greensC6 (i % 9) (i / 9), 0, 255⟩) }

/-- Project the raster out of a successful encode (used by witnesses to
name the concrete stego raster). -/
def exOkImage (e : Except EncodeError Image) (dflt : Image) : Image :=
  match e with
  | .ok st => st
  | .error _ => dflt

/-- The spec's scenario E2 carrier: 10×10, `Green = 0` for `x < 5` and
`Green = 255` for `x ≥ 5`. -/
def imgE2 : Image :=
  { width := 10, height := 10,
    pixels := (List.range 100).map
      (fun i => ⟨i % 10 * (i / 10) % 256, if i % 10 < 5 then 0 else 255, 0, 255⟩) }

/-! ## Theorems

### Permutation facts about the sort embedding -/

theorem cons_set_perm {α : Type} (d₀ a : α) :
    ∀ (t : List α) (m : ℕ), m < t.length →
      (t.getD m d₀ :: t.set m a).Perm (a :: t)
  | [], m, h => absurd h (by simp)
  | b :: t, 0, _ => by
    simpa using List.Perm.swap a b t
  | b :: t, m + 1, h => by
    have ih := cons_set_perm d₀ a t m (by simpa using h)
    have e : (b :: t).getD (m + 1) d₀ :: (b :: t).set (m + 1) a
        = t.getD m d₀ :: b :: t.set m a := by simp
    rw [e]
    exact ((List.Perm.swap b (t.getD m d₀) (t.set m a)).trans
      (ih.cons b)).trans (List.Perm.swap a b t)

theorem set_set_swap_perm {α : Type} (d₀ : α) :
    ∀ (l : List α) (i j : ℕ), i < l.length → j < l.length →
      ((l.set i (l.getD j d₀)).set j (l.getD i d₀)).Perm l
  | [], i, _, hi, _ => absurd hi (by simp)
  | a :: t, 0, 0, _, _ => by simp
  | a :: t, 0, m + 1, _, hj => by
    have hm : m < t.length := by simpa using hj
    have : ((a :: t).set 0 ((a :: t).getD (m + 1) d₀)).set (m + 1) ((a :: t).getD 0 d₀)
        = t.getD m d₀ :: t.set m a := by simp
    rw [this]
    exact cons_set_perm d₀ a t m hm
  | a :: t, n + 1, 0, hi, _ => by
    have hn : n < t.length := by simpa using hi
    have : ((a :: t).set (n + 1) ((a :: t).getD 0 d₀)).set 0 ((a :: t).getD (n + 1) d₀)
        = t.getD n d₀ :: t.set n a := by simp
    rw [this]
    exact cons_set_perm d₀ a t n hn
  | a :: t, n + 1, m + 1, hi, hj => by
    have hn : n < t.length := by simpa using hi
    have hm : m < t.length := by simpa using hj
    have : ((a :: t).set (n + 1) ((a :: t).getD (m + 1) d₀)).set (m + 1) ((a :: t).getD (n + 1) d₀)
        = a :: ((t.set n (t.getD m d₀)).set m (t.getD n d₀)) := by simp
    rw [this]
    exact (set_set_swap_perm d₀ t n m hn hm).cons a

theorem lswap_perm (d : List pixelCost) (i j : ℕ) : (lswap d i j).Perm d := by
  unfold lswap
  split
  · next h => exact set_set_swap_perm default d i j h.1 h.2
  · exact List.Perm.refl d

namespace GoSort

theorem insertInner_perm (a : ℕ) :
    ∀ (j : ℕ) (d : List pixelCost), (insertInner a j d).Perm d
  | 0, d => List.Perm.refl d
  | j + 1, d => by
    unfold insertInner
    split
    · exact (insertInner_perm a j _).trans (lswap_perm d (j + 1) j)
    · exact List.Perm.refl d

theorem insertionLoop_perm (a b : ℕ) :
    ∀ (fuel i : ℕ) (d : List pixelCost), (insertionLoop a b fuel i d).Perm d
  | 0, _, d => List.Perm.refl d
  | fuel + 1, i, d => by
    unfold insertionLoop
    split
    · exact (insertionLoop_perm a b fuel (i + 1) _).trans (insertInner_perm a i d)
    · exact List.Perm.refl d

theorem insertionSort_perm (a b : ℕ) (d : List pixelCost) :
    (insertionSort a b d).Perm d :=
  insertionLoop_perm a b b (a + 1) d

theorem siftDownLoop_perm (hi first : ℕ) :
    ∀ (fuel root : ℕ) (d : List pixelCost), (siftDownLoop hi first fuel root d).Perm d
  | 0, _, d => List.Perm.refl d
  | fuel + 1, root, d => by
    unfold siftDownLoop
    dsimp only
    split
    · exact List.Perm.refl d
    · split <;> split
      all_goals
        first
        | exact List.Perm.refl d
        | exact (siftDownLoop_perm hi first fuel _ _).trans (lswap_perm d _ _)

theorem siftDown_perm (lo hi first : ℕ) (d : List pixelCost) :
    (siftDown lo hi first d).Perm d :=
  siftDownLoop_perm hi first hi lo d

theorem heapBuild_perm (hi first : ℕ) :
    ∀ (n : ℕ) (d : List pixelCost), (heapBuild hi first n d).Perm d
  | 0, d => List.Perm.refl d
  | n + 1, d =>
    (heapBuild_perm hi first n _).trans (siftDown_perm n hi first d)

theorem heapExtract_perm (first : ℕ) :
    ∀ (n : ℕ) (d : List pixelCost), (heapExtract first n d).Perm d
  | 0, d => List.Perm.refl d
  | n + 1, d =>
    (heapExtract_perm first n _).trans
      ((siftDown_perm 0 n first _).trans (lswap_perm d first (first + n)))

theorem heapSort_perm (a b : ℕ) (d : List pixelCost) :
    (heapSort a b d).Perm d :=
  (heapExtract_perm a (b - a) _).trans (heapBuild_perm (b - a) a _ d)

theorem reverseRangeLoop_perm :
    ∀ (fuel i j : ℕ) (d : List pixelCost), (reverseRangeLoop fuel i j d).Perm d
  | 0, _, _, d => List.Perm.refl d
  | fuel + 1, i, j, d => by
    unfold reverseRangeLoop
    split
    · exact (reverseRangeLoop_perm fuel (i + 1) (j - 1) _).trans (lswap_perm d i j)
    · exact List.Perm.refl d

theorem reverseRange_perm (a b : ℕ) (d : List pixelCost) :
    (reverseRange a b d).Perm d :=
  reverseRangeLoop_perm b a (b - 1) d

theorem breakPatterns_perm (a b : ℕ) (d : List pixelCost) :
    (breakPatterns a b d).Perm d := by
  unfold breakPatterns
  dsimp only
  split
  · exact ((lswap_perm _ _ _).trans (lswap_perm _ _ _)).trans (lswap_perm d _ _)
  · exact List.Perm.refl d

theorem shiftLeft_perm :
    ∀ (j : ℕ) (d : List pixelCost), (shiftLeft j d).Perm d
  | 0, d => List.Perm.refl d
  | j + 1, d => by
    unfold shiftLeft
    split
    · exact (shiftLeft_perm j _).trans (lswap_perm d (j + 1) j)
    · exact List.Perm.refl d

theorem shiftRight_perm (b : ℕ) :
    ∀ (fuel j : ℕ) (d : List pixelCost), (shiftRight b fuel j d).Perm d
  | 0, _, d => List.Perm.refl d
  | fuel + 1, j, d => by
    unfold shiftRight
    split
    · exact (shiftRight_perm b fuel (j + 1) _).trans (lswap_perm d j (j - 1))
    · exact List.Perm.refl d

theorem pisLoop_perm (a b : ℕ) :
    ∀ (steps i : ℕ) (d : List pixelCost), (pisLoop a b steps i d).2.Perm d
  | 0, _, d => List.Perm.refl d
  | steps + 1, i, d => by
    unfold pisLoop
    dsimp only
    split
    · exact List.Perm.refl d
    · split
      · exact List.Perm.refl d
      · set i1 := pisScan d b b i with hi1
        set t1 := lswap d i1 (i1 - 1) with ht1
        set t2 := if 2 ≤ i1 - a then shiftLeft (i1 - 1) t1 else t1 with ht2
        set t3 := if 2 ≤ b - i1 then shiftRight b b (i1 + 1) t2 else t2 with ht3
        have h1 : t1.Perm d := lswap_perm d _ _
        have h2 : t2.Perm d := by
          rw [ht2]; split
          · exact (shiftLeft_perm _ _).trans h1
          · exact h1
        have h3 : t3.Perm d := by
          rw [ht3]; split
          · exact (shiftRight_perm _ _ _ _).trans h2
          · exact h2
        exact (pisLoop_perm a b steps i1 t3).trans h3

theorem partialInsertionSort_perm (a b : ℕ) (d : List pixelCost) :
    (partialInsertionSort a b d).2.Perm d :=
  pisLoop_perm a b 5 (a + 1) d

theorem partitionEqualLoop_perm (a b : ℕ) :
    ∀ (fuel i j : ℕ) (d : List pixelCost), (partitionEqualLoop a b fuel i j d).2.Perm d
  | 0, _, _, d => List.Perm.refl d
  | fuel + 1, i, j, d => by
    unfold partitionEqualLoop
    dsimp only
    split
    · exact List.Perm.refl d
    · exact (partitionEqualLoop_perm a b fuel _ _ _).trans (lswap_perm d _ _)

theorem partitionEqual_perm (a b pivot : ℕ) (d : List pixelCost) :
    (partitionEqual a b pivot d).2.Perm d :=
  (partitionEqualLoop_perm a b b (a + 1) (b - 1) _).trans (lswap_perm d a pivot)

theorem partitionLoop_perm (a b : ℕ) :
    ∀ (fuel i j : ℕ) (d : List pixelCost), (partitionLoop a b fuel i j d).2.Perm d
  | 0, _, _, d => List.Perm.refl d
  | fuel + 1, i, j, d => by
    unfold partitionLoop
    dsimp only
    split
    · exact List.Perm.refl d
    · exact (partitionLoop_perm a b fuel _ _ _).trans (lswap_perm d _ _)

theorem partition_perm (a b pivot : ℕ) (d : List pixelCost) :
    (partition a b pivot d).2.Perm d := by
  unfold partition
  dsimp only
  split
  · exact (lswap_perm _ _ _).trans (lswap_perm d a pivot)
  · refine (lswap_perm _ _ _).trans ?_
    exact ((partitionLoop_perm a b b _ _ _).trans (lswap_perm _ _ _)).trans
      (lswap_perm d a pivot)

set_option maxHeartbeats 2000000 in
theorem pdqsortRec_perm :
    ∀ (fuel a b limit : ℕ) (wb wp : Bool) (d : List pixelCost),
      (pdqsortRec fuel a b limit wb wp d).Perm d
  | 0, _, _, _, _, _, d => List.Perm.refl d
  | fuel + 1, a, b, limit, wb, wp, d => by
    unfold pdqsortRec
    dsimp only
    split
    · exact insertionSort_perm a b d
    · split
      · exact heapSort_perm a b d
      · generalize hd1 : (if ¬ wb = true then breakPatterns a b d else d) = d1
        have hp1 : d1.Perm d := by
          rw [← hd1]; split
          · exact breakPatterns_perm a b d
          · exact List.Perm.refl d
        generalize (if ¬ wb = true then limit - 1 else limit) = limit1
        generalize hd2 :
          (if (choosePivot d1 a b).2 = Hint.decreasing then reverseRange a b d1 else d1) = d2
        have hp2 : d2.Perm d := by
          rw [← hd2]; split
          · exact (reverseRange_perm a b d1).trans hp1
          · exact hp1
        generalize
          (if (choosePivot d1 a b).2 = Hint.decreasing then
            b - 1 - ((choosePivot d1 a b).1 - a)
          else (choosePivot d1 a b).1) = pivot
        generalize
          (if (choosePivot d1 a b).2 = Hint.decreasing then Hint.increasing
          else (choosePivot d1 a b).2) = hint
        generalize hpis :
          (if wb = true ∧ wp = true ∧ hint = Hint.increasing then
            partialInsertionSort a b d2
          else (false, d2)) = pis
        have hp3 : pis.2.Perm d := by
          rw [← hpis]; split
          · exact (partialInsertionSort_perm a b d2).trans hp2
          · exact hp2
        split
        · exact hp3
        · split
          · exact (pdqsortRec_perm fuel _ b _ wb wp _).trans
              ((partitionEqual_perm a b pivot pis.2).trans hp3)
          · split
            · exact (pdqsortRec_perm fuel _ b _ _ _ _).trans
                ((pdqsortRec_perm fuel a _ _ true true _).trans
                  ((partition_perm a b pivot pis.2).trans hp3))
            · exact (pdqsortRec_perm fuel a _ _ _ _ _).trans
                ((pdqsortRec_perm fuel _ b _ true true _).trans
                  ((partition_perm a b pivot pis.2).trans hp3))

theorem sortSlice_perm (d : List pixelCost) : (sortSlice d).Perm d :=
  pdqsortRec_perm (d.length + 1) 0 d.length (bitsLen d.length) true true d

end GoSort

/-! ### The position order is a permutation of all flat indices -/

theorem orderByCost_posPerm (len : ℕ) (c : ℕ → Cost) :
    ((orderByCost len c).map pixelCost.pos).Perm (List.range len) := by
  have h1 := (GoSort.sortSlice_perm
    ((List.range len).map (fun i => pixelCost.mk i (c i)))).map pixelCost.pos
  have h2 : ((List.range len).map (fun i => pixelCost.mk i (c i))).map pixelCost.pos
      = List.range len := by
    rw [List.map_map]
    exact List.map_id _
  rw [orderByCost]
  exact List.Perm.trans h1 (by rw [h2])

theorem orderByCost_length (len : ℕ) (c : ℕ → Cost) :
    (orderByCost len c).length = len := by
  have := (orderByCost_posPerm len c).length_eq
  simpa using this

theorem orderByCost_pos_lt (len : ℕ) (c : ℕ → Cost) (k : ℕ) (hk : k < len) :
    (lget (orderByCost len c) k).pos < len := by
  have hlen : k < (orderByCost len c).length := by rw [orderByCost_length]; exact hk
  have hmem : (orderByCost len c)[k] ∈ orderByCost len c := List.getElem_mem hlen
  have hmem2 : (orderByCost len c)[k].pos ∈ (orderByCost len c).map pixelCost.pos :=
    List.mem_map_of_mem pixelCost.pos hmem
  have := ((orderByCost_posPerm len c).mem_iff).mp hmem2
  rw [lget, List.getD_eq_getElem _ _ hlen]
  exact List.mem_range.mp this

theorem orderByCost_pos_injective (len : ℕ) (c : ℕ → Cost) (k k' : ℕ)
    (hk : k < len) (hk' : k' < len) (hne : k ≠ k') :
    (lget (orderByCost len c) k).pos ≠ (lget (orderByCost len c) k').pos := by
  have hlen : k < (orderByCost len c).length := by rw [orderByCost_length]; exact hk
  have hlen' : k' < (orderByCost len c).length := by rw [orderByCost_length]; exact hk'
  have hnd : ((orderByCost len c).map pixelCost.pos).Nodup :=
    ((orderByCost_posPerm len c).nodup_iff).mpr (List.nodup_range len)
  have hkm : k < ((orderByCost len c).map pixelCost.pos).length := by
    rw [List.length_map]; exact hlen
  have hkm' : k' < ((orderByCost len c).map pixelCost.pos).length := by
    rw [List.length_map]; exact hlen'
  intro h
  apply hne
  have : ((orderByCost len c).map pixelCost.pos)[k]
      = ((orderByCost len c).map pixelCost.pos)[k'] := by
    rw [List.getElem_map, List.getElem_map]
    rw [lget, lget, List.getD_eq_getElem _ _ hlen, List.getD_eq_getElem _ _ hlen'] at h
    exact h
  exact (hnd.getElem_inj_iff).mp this

/-! ### LSB matching: post-conditions -/

theorem LSBMatchingEmbed_lsb (p bit : ℕ) (cost : Cost) (r : Option ℕ)
    (hb : bit < 2) : (LSBMatchingEmbed p bit cost r).1 % 2 = bit := by
  unfold LSBMatchingEmbed
  rcases r with _ | rv
  · dsimp only
    split
    · next h => exact h
    · next h => split <;> omega
  · dsimp only
    split
    · next h => exact h
    · next h => split <;> split <;> omega

theorem LSBMatchingEmbed_close (p bit : ℕ) (cost : Cost) (r : Option ℕ) :
    ((LSBMatchingEmbed p bit cost r).1 : ℤ) - p ≤ 1 ∧
      (p : ℤ) - (LSBMatchingEmbed p bit cost r).1 ≤ 1 := by
  unfold LSBMatchingEmbed
  rcases r with _ | rv
  · dsimp only
    split
    · omega
    · split <;> constructor <;> push_cast <;> omega
  · dsimp only
    split
    · omega
    · split <;> split <;> constructor <;> push_cast <;> omega

/-! ### getD/set helpers for the embedding loop -/

theorem getD_set_ne {α : Type} (l : List α) (i p : ℕ) (v d : α) (h : i ≠ p) :
    (l.set i v).getD p d = l.getD p d := by
  by_cases hp : p < l.length
  · have hp' : p < (l.set i v).length := by rw [List.length_set]; exact hp
    rw [List.getD_eq_getElem _ _ hp', List.getD_eq_getElem _ _ hp,
      List.getElem_set]
    simp [h]
  · rw [List.getD_eq_default, List.getD_eq_default]
    · omega
    · rw [List.length_set]; omega

theorem getD_set_self {α : Type} (l : List α) (i : ℕ) (v d : α)
    (h : i < l.length) : (l.set i v).getD i d = v := by
  have h' : i < (l.set i v).length := by rw [List.length_set]; exact h
  rw [List.getD_eq_getElem _ _ h', List.getElem_set]
  simp

/-! ### The embedding loop writes the message bits at the sorted positions -/

theorem embedLoop_fst_length (imgPx message : List ℕ) (apc : List pixelCost)
    (costs : ℕ → Cost) (rng : ℕ → Option ℕ) :
    ∀ (count k : ℕ) (st : List ℕ × ℕ),
      (embedLoop imgPx message apc costs rng count k st).1.length = st.1.length
  | 0, _, _ => rfl
  | count + 1, k, st => by
    rw [embedLoop, embedLoop_fst_length imgPx message apc costs rng count (k + 1) _]
    simp [embedStep]

theorem embedLoop_getD_untouched (imgPx message : List ℕ) (apc : List pixelCost)
    (costs : ℕ → Cost) (rng : ℕ → Option ℕ) :
    ∀ (count k : ℕ) (st : List ℕ × ℕ) (p : ℕ),
      (∀ k', k ≤ k' → k' < k + count → (lget apc k').pos ≠ p) →
      (embedLoop imgPx message apc costs rng count k st).1.getD p 0 = st.1.getD p 0
  | 0, _, _, _, _ => rfl
  | count + 1, k, st, p, hp => by
    rw [embedLoop]
    rw [embedLoop_getD_untouched imgPx message apc costs rng count (k + 1) _ p
      (fun k' h1 h2 => hp k' (by omega) (by omega))]
    exact getD_set_ne _ _ _ _ _ (hp k (le_refl k) (by omega))

theorem embedLoop_lsb (imgPx message : List ℕ) (apc : List pixelCost)
    (costs : ℕ → Cost) (rng : ℕ → Option ℕ) :
    ∀ (count k : ℕ) (st : List ℕ × ℕ) (k' : ℕ),
      k ≤ k' → k' < k + count →
      (∀ k'', k' < k'' → k'' < k + count → (lget apc k'').pos ≠ (lget apc k').pos) →
      (lget apc k').pos < st.1.length →
      (embedLoop imgPx message apc costs rng count k st).1.getD (lget apc k').pos 0 % 2
        = bitOf message k'
  | 0, k, _, k', h1, h2, _, _ => by omega
  | count + 1, k, st, k', h1, h2, hdist, hlen => by
    rw [embedLoop]
    rcases Nat.eq_or_lt_of_le h1 with heq | hlt
    · subst heq
      rw [embedLoop_getD_untouched imgPx message apc costs rng count (k + 1) _ _
        (fun k'' hh1 hh2 => hdist k'' (by omega) (by omega))]
      show (embedStep imgPx message apc costs rng k st).1.getD (lget apc k).pos 0 % 2
        = bitOf message k
      rw [embedStep]
      dsimp only
      rw [getD_set_self _ _ _ _ hlen]
      exact LSBMatchingEmbed_lsb _ _ _ _ (by omega)
    · exact embedLoop_lsb imgPx message apc costs rng count (k + 1)
        (embedStep imgPx message apc costs rng k st) k' hlt (by omega)
        (fun k'' hh1 hh2 => hdist k'' (by omega) (by omega))
        (by rw [embedStep]; simpa using hlen)

/-! ### Framing lemmas: header round-trip and bit indexing -/

theorem putUint64_length (v : ℕ) : (putUint64 v).length = 8 := by
  simp [putUint64]

theorem putUint64_explicit (v : ℕ) :
    putUint64 v = [v / 2 ^ 56 % 256, v / 2 ^ 48 % 256, v / 2 ^ 40 % 256,
      v / 2 ^ 32 % 256, v / 2 ^ 24 % 256, v / 2 ^ 16 % 256, v / 2 ^ 8 % 256,
      v % 256] := by
  show List.map _ (List.range 8) = _
  rw [show List.range 8 = [0, 1, 2, 3, 4, 5, 6, 7] from rfl]
  simp [List.map]

theorem beUint64_explicit (bs : List ℕ) :
    beUint64 bs = bs.getD 0 0 * 2 ^ 56 + bs.getD 1 0 * 2 ^ 48 +
      bs.getD 2 0 * 2 ^ 40 + bs.getD 3 0 * 2 ^ 32 + bs.getD 4 0 * 2 ^ 24 +
      bs.getD 5 0 * 2 ^ 16 + bs.getD 6 0 * 2 ^ 8 + bs.getD 7 0 := by
  show List.foldl _ 0 (List.range 8) = _
  rw [show List.range 8 = [0, 1, 2, 3, 4, 5, 6, 7] from rfl]
  simp [List.foldl]

theorem beUint64_putUint64 (v : ℕ) (hv : v < 2 ^ 64) :
    beUint64 (putUint64 v) = v := by
  rw [beUint64_explicit, putUint64_explicit]
  simp only [List.getD]
  norm_num
  omega

theorem bitOf_lt_two (bytes : List ℕ) (k : ℕ) : bitOf bytes k < 2 :=
  Nat.mod_lt _ (by omega)

theorem bitOf_mul8 (F : List ℕ) (i j : ℕ) (hj : j < 8) :
    bitOf F (i * 8 + j) = F.getD i 0 / 2 ^ (7 - j) % 2 := by
  unfold bitOf
  rw [show (i * 8 + j) / 8 = i by omega, show (i * 8 + j) % 8 = j by omega]

theorem if_mod_two_eq (x c acc : ℕ) :
    (if x % 2 = 1 then acc + c else acc) = acc + x % 2 * c := by
  rcases Nat.mod_two_eq_zero_or_one x with h | h <;> simp [h]

theorem byteFromBits_congr (bits bits' : ℕ → ℕ) (i : ℕ)
    (h : ∀ j, j < 8 → bits (i * 8 + j) = bits' (i * 8 + j)) :
    byteFromBits bits i = byteFromBits bits' i := by
  show List.foldl _ 0 (List.range 8) = List.foldl _ 0 (List.range 8)
  rw [show List.range 8 = [0, 1, 2, 3, 4, 5, 6, 7] from rfl]
  simp only [List.foldl]
  simp only [h 0 (by omega), h 1 (by omega), h 2 (by omega), h 3 (by omega),
    h 4 (by omega), h 5 (by omega), h 6 (by omega), h 7 (by omega)]

theorem byteFromBits_bitOf (F : List ℕ) (i : ℕ) :
    byteFromBits (fun k => bitOf F k) i = F.getD i 0 % 256 := by
  show List.foldl _ 0 (List.range 8) = _
  rw [show List.range 8 = [0, 1, 2, 3, 4, 5, 6, 7] from rfl]
  simp only [List.foldl]
  simp only [bitOf_mul8 F i 0 (by omega), bitOf_mul8 F i 1 (by omega),
    bitOf_mul8 F i 2 (by omega), bitOf_mul8 F i 3 (by omega),
    bitOf_mul8 F i 4 (by omega), bitOf_mul8 F i 5 (by omega),
    bitOf_mul8 F i 6 (by omega), bitOf_mul8 F i 7 (by omega)]
  generalize F.getD i 0 = b
  simp only [if_mod_two_eq]
  norm_num
  omega

theorem bitOf_append_left (F G : List ℕ) (k : ℕ) (h : k < 8 * F.length) :
    bitOf (F ++ G) k = bitOf F k := by
  unfold bitOf
  rw [List.getD_append _ _ _ _ (by omega)]

theorem bitOf_append_right (F G : List ℕ) (k : ℕ) (h : 8 * F.length ≤ k) :
    bitOf (F ++ G) k = bitOf G (k - 8 * F.length) := by
  unfold bitOf
  rw [List.getD_append_right _ _ _ _ (by omega)]
  rw [show k / 8 - F.length = (k - 8 * F.length) / 8 by omega,
    show k % 8 = (k - 8 * F.length) % 8 by omega]

/-! ### Raster plumbing and cost-map congruence -/

theorem flatRed_length (img : Image) :
    (flatRed img).length = img.width * img.height := by
  simp [flatRed]

theorem flatRed_getD (img : Image) (i : ℕ) (h : i < img.width * img.height) :
    (flatRed img).getD i 0 = (img.pix (i % img.width) (i / img.width)).r := by
  unfold flatRed
  have h' : i < ((List.range (img.width * img.height)).map
      (fun i => (img.pix (i % img.width) (i / img.width)).r)).length := by
    simpa using h
  rw [List.getD_eq_getElem _ _ h', List.getElem_map, List.getElem_range]

theorem gxAt_congr (img img' : Image) (channel x y : ℕ)
    (h : ∀ u v, getChannelValue img u v channel = getChannelValue img' u v channel) :
    gxAt img channel x y = gxAt img' channel x y := by
  unfold gxAt
  simp only [h]

theorem gyAt_congr (img img' : Image) (channel x y : ℕ)
    (h : ∀ u v, getChannelValue img u v channel = getChannelValue img' u v channel) :
    gyAt img channel x y = gyAt img' channel x y := by
  unfold gyAt
  simp only [h]

theorem gradSq_congr (img img' : Image) (channel x y : ℕ)
    (h : ∀ u v, getChannelValue img u v channel = getChannelValue img' u v channel) :
    gradSq img channel x y = gradSq img' channel x y := by
  unfold gradSq
  rw [gxAt_congr img img' channel x y h, gyAt_congr img img' channel x y h]

/-- Go `CalculateCosts` is a function of the reference channel alone: two
rasters of equal dimensions whose selected channel agrees everywhere get
identical cost maps (spec §4.1 invariant). -/
theorem CalculateCosts_congr (img img' : Image) (channel : ℕ)
    (hw : img.width = img'.width) (hh : img.height = img'.height)
    (h : ∀ u v, getChannelValue img u v channel = getChannelValue img' u v channel) :
    CalculateCosts img channel = CalculateCosts img' channel := by
  unfold CalculateCosts
  rw [hw, hh]
  have : ∀ idx : ℕ,
      (if idx % img'.width = 0 ∨ idx % img'.width = img'.width - 1 ∨
          idx / img'.width = 0 ∨ idx / img'.width = img'.height - 1 then Cost.inf
        else Cost.fin (gradSq img channel (idx % img'.width) (idx / img'.width)))
      = (if idx % img'.width = 0 ∨ idx % img'.width = img'.width - 1 ∨
          idx / img'.width = 0 ∨ idx / img'.width = img'.height - 1 then Cost.inf
        else Cost.fin (gradSq img' channel (idx % img'.width) (idx / img'.width))) := by
    intro idx
    rw [gradSq_congr img img' channel _ _ h]
  simp only [this]

theorem getD_map_range {α : Type} (n : ℕ) (f : ℕ → α) (i : ℕ) (d : α)
    (h : i < n) : ((List.range n).map f).getD i d = f i := by
  have h' : i < ((List.range n).map f).length := by simpa using h
  rw [List.getD_eq_getElem _ _ h', List.getElem_map, List.getElem_range]

theorem GetOptimalChanges_length (img msg : List ℕ) (costs : CostMap)
    (rng : ℕ → Option ℕ) :
    (GetOptimalChanges img msg costs rng).length = img.length := by
  unfold GetOptimalChanges
  dsimp only
  split
  · rfl
  · rw [embedLoop_fst_length]

/-- Claim C10 core: when the message needs more bits than there are
pixels, `GetOptimalChanges` returns the unmodified copy. -/
theorem GetOptimalChanges_overflow (img msg : List ℕ) (costs : CostMap)
    (rng : ℕ → Option ℕ) (h : img.length < msg.length * 8) :
    GetOptimalChanges img msg costs rng = img := by
  unfold GetOptimalChanges
  dsimp only
  rw [if_pos h]

/-- After `GetOptimalChanges`, the pixel at the `k`-th cheapest position
carries the `k`-th message bit in its LSB. -/
theorem GetOptimalChanges_lsb (img msg : List ℕ) (costs : CostMap)
    (rng : ℕ → Option ℕ) (hn : msg.length * 8 ≤ img.length) (k : ℕ)
    (hk : k < msg.length * 8) :
    (GetOptimalChanges img msg costs rng).getD
        (lget (orderByCost img.length costs.costs) k).pos 0 % 2
      = bitOf msg k := by
  unfold GetOptimalChanges
  dsimp only
  rw [if_neg (by omega)]
  exact embedLoop_lsb img msg (orderByCost img.length costs.costs) costs.costs rng
    (msg.length * 8) 0 (img, 0) k (by omega) (by omega)
    (fun k'' h1 h2 => orderByCost_pos_injective img.length costs.costs k'' k
      (by omega) (by omega) (by omega))
    (orderByCost_pos_lt img.length costs.costs k (by omega))

/-- Inversion of a successful `AdvancedEncode`: the capacity check passed,
the format was PNG or JPEG, and the stego raster is the carrier with the
Red channel replaced by the embedded pixel vector. -/
theorem AdvancedEncode_ok_inv {img : Image} {fmt : String} {data : List ℕ}
    {rng : ℕ → Option ℕ} {stego : Image}
    (h : AdvancedEncode img fmt data rng = .ok stego) :
    (8 + data.length) * 8 ≤ img.width * img.height ∧
    (fmt = "png" ∨ fmt = "jpeg") ∧
    stego = ({ width := img.width, height := img.height,
               pixels := (List.range (img.width * img.height)).map (fun i =>
                 let c := img.pix (i % img.width) (i / img.width)
                 { r := (GetOptimalChanges (flatRed img)
                     (putUint64 (data.length % 2 ^ 64) ++ data)
                     (CalculateCosts img 1) rng).getD i 0,
                   g := c.g, b := c.b, a := c.a }) } : Image) := by
  unfold AdvancedEncode at h
  dsimp only at h
  split at h
  · exact absurd h (by simp)
  · next hcap =>
    split at h
    · next hfmt =>
      have hlen : (putUint64 (data.length % 2 ^ 64) ++ data).length
          = 8 + data.length := by
        rw [List.length_append, putUint64_length]
      refine ⟨by omega, hfmt, (Except.ok.inj h).symm⟩
    · exact absurd h (by simp)

/-- Construction direction: with enough capacity and a PNG/JPEG carrier,
`AdvancedEncode` succeeds. -/
theorem AdvancedEncode_ok (img : Image) (fmt : String) (data : List ℕ)
    (rng : ℕ → Option ℕ)
    (hcap : (8 + data.length) * 8 ≤ img.width * img.height)
    (hfmt : fmt = "png" ∨ fmt = "jpeg") :
    AdvancedEncode img fmt data rng = .ok
      ({ width := img.width, height := img.height,
         pixels := (List.range (img.width * img.height)).map (fun i =>
           let c := img.pix (i % img.width) (i / img.width)
           { r := (GetOptimalChanges (flatRed img)
               (putUint64 (data.length % 2 ^ 64) ++ data)
               (CalculateCosts img 1) rng).getD i 0,
             g := c.g, b := c.b, a := c.a }) } : Image) := by
  unfold AdvancedEncode
  dsimp only
  have hlen : (putUint64 (data.length % 2 ^ 64) ++ data).length
      = 8 + data.length := by
    rw [List.length_append, putUint64_length]
  rw [if_neg (by omega), if_pos hfmt]

/-- Claim C5 core: `AdvancedEncode` reports `CapacityExceeded` exactly when
`8·(8+L) > W·H`, whatever the format string. -/
theorem AdvancedEncode_capacity_iff (img : Image) (fmt : String)
    (data : List ℕ) (rng : ℕ → Option ℕ) :
    AdvancedEncode img fmt data rng = .error .capacityExceeded ↔
      img.width * img.height < (8 + data.length) * 8 := by
  unfold AdvancedEncode
  dsimp only
  have hlen : (putUint64 (data.length % 2 ^ 64) ++ data).length
      = 8 + data.length := by
    rw [List.length_append, putUint64_length]
  split
  · next hcap => simp only [hlen] at hcap; exact ⟨fun _ => by omega, fun _ => rfl⟩
  · next hcap =>
    simp only [hlen] at hcap
    constructor
    · intro h
      split at h <;> simp at h
    · intro h; omega

theorem idx_lt (W H x y : ℕ) (hx : x < W) (hy : y < H) : y * W + x < W * H := by
  have h1 : y * W + x < (y + 1) * W := by rw [Nat.succ_mul]; omega
  have h2 : (y + 1) * W ≤ H * W := Nat.mul_le_mul_right W hy
  rw [Nat.mul_comm W H]
  omega

theorem mk_pix_in (W H : ℕ) (f : ℕ → RGBA) (x y : ℕ) (hx : x < W) (hy : y < H) :
    (Image.mk W H ((List.range (W * H)).map f)).pix x y = f (y * W + x) := by
  unfold Image.pix
  rw [if_pos ⟨hx, hy⟩]
  exact getD_map_range _ f _ _ (idx_lt W H x y hx hy)

theorem rowmajor_mod (W x y : ℕ) (hx : x < W) : (y * W + x) % W = x := by
  rw [Nat.add_comm, Nat.mul_comm, Nat.add_mul_mod_self_left]
  exact Nat.mod_eq_of_lt hx

theorem rowmajor_div (W x y : ℕ) (hx : x < W) : (y * W + x) / W = y := by
  rw [Nat.add_comm, Nat.mul_comm, Nat.add_mul_div_left _ _ (by omega)]
  rw [Nat.div_eq_of_lt hx]
  omega

/-- The raster built by a successful `AdvancedEncode` preserves Green, Blue
and Alpha at every in-bounds pixel and carries the embedded vector on Red. -/
theorem encode_stego_pix (img : Image) (data : List ℕ) (rng : ℕ → Option ℕ)
    (x y : ℕ) (hx : x < img.width) (hy : y < img.height) :
    (Image.mk img.width img.height
        ((List.range (img.width * img.height)).map (fun i =>
          let c := img.pix (i % img.width) (i / img.width)
          { r := (GetOptimalChanges (flatRed img)
              (putUint64 (data.length % 2 ^ 64) ++ data)
              (CalculateCosts img 1) rng).getD i 0,
            g := c.g, b := c.b, a := c.a }))).pix x y
      = ({ r := (GetOptimalChanges (flatRed img)
                 (putUint64 (data.length % 2 ^ 64) ++ data)
                 (CalculateCosts img 1) rng).getD (y * img.width + x) 0,
           g := (img.pix x y).g, b := (img.pix x y).b,
           a := (img.pix x y).a } : RGBA) := by
  rw [mk_pix_in _ _ _ x y hx hy]
  dsimp only
  rw [rowmajor_mod _ _ _ hx, rowmajor_div _ _ _ hx]

theorem getChannelValue_one (img : Image) (x y : ℕ) :
    getChannelValue img x y 1 = (img.pix x y).g := rfl

theorem putUint64_getD_lt (v i : ℕ) (h : i < 8) :
    (putUint64 v).getD i 0 < 256 := by
  unfold putUint64
  rw [getD_map_range 8 _ i 0 h]
  exact Nat.mod_lt _ (by omega)

/-- Round-trip core: a successful PNG encode of a non-empty payload decodes
back to exactly the payload. -/
theorem encode_decode_roundtrip (img : Image) (data : List ℕ)
    (rng : ℕ → Option ℕ) (stego : Image)
    (hL : 1 ≤ data.length)
    (hsmall : 8 * (8 + data.length) < 2 ^ 63)
    (hbytes : ∀ byt ∈ data, byt < 256)
    (h : AdvancedEncode img "png" data rng = .ok stego) :
    AdvancedDecode stego = .ok data := by
  obtain ⟨hcap, _, hstego⟩ := AdvancedEncode_ok_inv h
  have hLmod : data.length % 2 ^ 64 = data.length := Nat.mod_eq_of_lt (by omega)
  rw [hLmod] at hstego
  have hW0 : 0 < img.width := by
    rcases Nat.eq_zero_or_pos img.width with h0 | h0
    · rw [h0] at hcap; simp at hcap
    · exact h0
  have hH0 : 0 < img.height := by
    rcases Nat.eq_zero_or_pos img.height with h0 | h0
    · rw [h0] at hcap; simp at hcap
    · exact h0
  have hFlen : (putUint64 data.length ++ data).length = 8 + data.length := by
    rw [List.length_append, putUint64_length]
  have hpix : ∀ x y, x < img.width → y < img.height →
      stego.pix x y = ({ r := (GetOptimalChanges (flatRed img)
                             (putUint64 data.length ++ data)
                             (CalculateCosts img 1) rng).getD (y * img.width + x) 0,
                         g := (img.pix x y).g, b := (img.pix x y).b,
                         a := (img.pix x y).a } : RGBA) := by
    intro x y hx hy
    rw [hstego]
    have := encode_stego_pix img data rng x y hx hy
    rw [hLmod] at this
    exact this
  have hdims : stego.width = img.width ∧ stego.height = img.height := by
    rw [hstego]; exact ⟨rfl, rfl⟩
  have hgreen : ∀ u v, getChannelValue stego u v 1 = getChannelValue img u v 1 := by
    intro u v
    rw [getChannelValue_one, getChannelValue_one]
    by_cases hin : u < img.width ∧ v < img.height
    · rw [hpix u v hin.1 hin.2]
    · unfold Image.pix
      rw [hdims.1, hdims.2]
      rw [if_neg hin, if_neg hin]
  have hcosts : CalculateCosts stego 1 = CalculateCosts img 1 :=
    CalculateCosts_congr stego img 1 hdims.1 hdims.2 hgreen
  have hflat : ∀ p, p < img.width * img.height →
      (flatRed stego).getD p 0 = (GetOptimalChanges (flatRed img)
        (putUint64 data.length ++ data) (CalculateCosts img 1) rng).getD p 0 := by
    intro p hp
    have hp2 : p < stego.width * stego.height := by rw [hdims.1, hdims.2]; exact hp
    rw [flatRed_getD stego p hp2, hdims.1]
    have hxm : p % img.width < img.width := Nat.mod_lt _ hW0
    have hyd : p / img.width < img.height := Nat.div_lt_of_lt_mul (by omega)
    rw [hpix _ _ hxm hyd]
    rw [show p / img.width * img.width + p % img.width = p by
      rw [Nat.mul_comm]; exact Nat.div_add_mod p img.width]
  have hflatlen : (flatRed img).length = img.width * img.height := flatRed_length img
  have hbit : ∀ k, k < (8 + data.length) * 8 →
      (flatRed stego).getD
          (lget (orderByCost (img.width * img.height) (CalculateCosts img 1).costs) k).pos 0 % 2
        = bitOf (putUint64 data.length ++ data) k := by
    intro k hk
    have hkcap : k < img.width * img.height := by omega
    have hpos := orderByCost_pos_lt (img.width * img.height)
      (CalculateCosts img 1).costs k hkcap
    rw [hflat _ hpos]
    have hmain := GetOptimalChanges_lsb (flatRed img) (putUint64 data.length ++ data)
      (CalculateCosts img 1) rng (by rw [hFlen, hflatlen]; omega) k (by rw [hFlen]; omega)
    rw [hflatlen] at hmain
    exact hmain
  have h64 : headerSize * 8 = 64 := rfl
  have hm : decodedHeaderLen stego = data.length := by
    unfold decodedHeaderLen
    dsimp only
    rw [hdims.1, hdims.2, hcosts]
    have hlist : (List.range headerSize).map (fun i => byteFromBits
        (fun i => (flatRed stego).getD
          (lget (orderByCost (img.width * img.height) (CalculateCosts img 1).costs) i).pos 0 % 2) i)
        = putUint64 data.length := by
      apply List.ext_getElem
      · rw [List.length_map, List.length_range, putUint64_length]; rfl
      · intro i hi1 hi2
        rw [List.getElem_map, List.getElem_range]
        have hi8 : i < 8 := by
          have := hi1; simp [headerSize] at this; omega
        have hcon : byteFromBits
            (fun i => (flatRed stego).getD
              (lget (orderByCost (img.width * img.height) (CalculateCosts img 1).costs) i).pos 0 % 2) i
            = byteFromBits (fun k => bitOf (putUint64 data.length ++ data) k) i :=
          byteFromBits_congr _ _ i (fun j hj => hbit (i * 8 + j) (by omega))
        rw [hcon, byteFromBits_bitOf]
        rw [List.getD_append _ _ _ _ (by rw [putUint64_length]; omega)]
        rw [← List.getD_eq_getElem (putUint64 data.length) 0 hi2]
        exact Nat.mod_eq_of_lt (putUint64_getD_lt data.length i hi8)
    rw [hlist]
    exact beUint64_putUint64 data.length (by omega)
  unfold AdvancedDecode
  dsimp only
  rw [hdims.1, hdims.2, hcosts, hm, h64]
  rw [if_neg (by omega : ¬ img.width * img.height < 64)]
  rw [show data.length * 8 % 2 ^ 64 = data.length * 8 from Nat.mod_eq_of_lt (by omega)]
  rw [show (64 + data.length * 8) % 2 ^ 64 = 64 + data.length * 8 from
    Nat.mod_eq_of_lt (by omega)]
  rw [if_neg (by omega :
    ¬ (data.length = 0 ∨ img.width * img.height < 64 + data.length * 8))]
  rw [if_neg (by omega : ¬ 2 ^ 63 ≤ data.length * 8)]
  rw [if_neg (by omega : ¬ 2 ^ 63 ≤ data.length)]
  rw [if_neg (by omega : ¬ data.length * 8 < data.length * 8)]
  congr 1
  apply List.ext_getElem
  · rw [List.length_map, List.length_range]
  · intro i hi1 hi2
    rw [List.getElem_map, List.getElem_range]
    have hiL : i < data.length := by simpa using hi2
    have hcon : byteFromBits
        (fun k => (flatRed stego).getD
          (lget (orderByCost (img.width * img.height) (CalculateCosts img 1).costs) (k + 64)).pos 0 % 2) i
        = byteFromBits (fun k => bitOf data k) i := by
      apply byteFromBits_congr _ _ i
      intro j hj
      rw [hbit (i * 8 + j + 64) (by omega)]
      rw [bitOf_append_right _ _ _ (by rw [putUint64_length]; omega)]
      rw [putUint64_length]
      congr 1
    rw [hcon, byteFromBits_bitOf]
    rw [List.getD_eq_getElem data 0 hiL]
    exact Nat.mod_eq_of_lt (hbytes _ (List.getElem_mem hiL))

/-! ## Claim theorems -/

/-- Claim C3 (confirmed): for every pixel value `p ≤ 255`, bit in `{0,1}`
and random outcome, `LSBMatchingEmbed` returns a value whose LSB equals the
bit, within ±1 of `p`; when the LSB differs, `p = 0` yields `1` and
`p = 255` yields `254`; and `LSBMatchingEmbed(100, 1)` returns 99 or 101. -/
theorem C3_lsb_matching_embed (p bit : ℕ) (cost : Cost) (r : Option ℕ)
    (hp : p ≤ 255) (hb : bit = 0 ∨ bit = 1) :
    (LSBMatchingEmbed p bit cost r).1 % 2 = bit ∧
    (((LSBMatchingEmbed p bit cost r).1 : ℤ) - p ≤ 1 ∧
      (p : ℤ) - (LSBMatchingEmbed p bit cost r).1 ≤ 1) ∧
    (p % 2 ≠ bit →
      (p = 0 → (LSBMatchingEmbed p bit cost r).1 = 1) ∧
      (p = 255 → (LSBMatchingEmbed p bit cost r).1 = 254)) ∧
    (p = 100 → bit = 1 →
      (LSBMatchingEmbed p bit cost r).1 = 99 ∨
        (LSBMatchingEmbed p bit cost r).1 = 101) := by
  refine ⟨LSBMatchingEmbed_lsb p bit cost r (by omega),
    LSBMatchingEmbed_close p bit cost r, ?_, ?_⟩
  · intro hdiff
    unfold LSBMatchingEmbed
    rcases r with _ | rv
    · dsimp only
      split_ifs <;> omega
    · dsimp only
      split_ifs <;> omega
  · intro hp100 hb1
    unfold LSBMatchingEmbed
    rcases r with _ | rv
    · dsimp only
      split_ifs <;> omega
    · dsimp only
      split_ifs <;> omega

theorem C3_lsb_matching_embed_witness :
    ((100 : ℕ) ≤ 255 ∧ ((1 : ℕ) = 0 ∨ (1 : ℕ) = 1)) ∧
    ((LSBMatchingEmbed 100 1 Cost.zero (some 3)).1 % 2 = 1 ∧
    (((LSBMatchingEmbed 100 1 Cost.zero (some 3)).1 : ℤ) - 100 ≤ 1 ∧
      ((100 : ℕ) : ℤ) - (LSBMatchingEmbed 100 1 Cost.zero (some 3)).1 ≤ 1) ∧
    ((100 : ℕ) % 2 ≠ 1 →
      ((100 : ℕ) = 0 → (LSBMatchingEmbed 100 1 Cost.zero (some 3)).1 = 1) ∧
      ((100 : ℕ) = 255 → (LSBMatchingEmbed 100 1 Cost.zero (some 3)).1 = 254)) ∧
    ((100 : ℕ) = 100 → (1 : ℕ) = 1 →
      (LSBMatchingEmbed 100 1 Cost.zero (some 3)).1 = 99 ∨
        (LSBMatchingEmbed 100 1 Cost.zero (some 3)).1 = 101)) :=
  ⟨⟨by decide, by decide⟩,
    C3_lsb_matching_embed 100 1 Cost.zero (some 3) (by decide) (by decide)⟩

/-- Claim C9 (confirmed): when the random read fails (`rand = none`) and
the pixel's LSB differs from the bit, `LSBMatchingEmbed` deterministically
returns `p+1`, except `p = 255` where it returns `254`; the function
returns normally, so encoding completes without surfacing an error. -/
theorem C9_rng_failure_fallback (p bit : ℕ) (cost : Cost)
    (hdiff : p % 2 ≠ bit) :
    (LSBMatchingEmbed p bit cost none).1 = if p = 255 then 254 else p + 1 := by
  unfold LSBMatchingEmbed
  dsimp only
  rw [if_neg hdiff]
  split_ifs <;> omega

theorem C9_rng_failure_fallback_witness :
    ((100 : ℕ) % 2 ≠ 1 ∧
      (LSBMatchingEmbed 100 1 Cost.zero none).1 = if (100 : ℕ) = 255 then 254 else 101) ∧
    ((255 : ℕ) % 2 ≠ 0 ∧
      (LSBMatchingEmbed 255 0 Cost.zero none).1 = if (255 : ℕ) = 255 then 254 else 256) :=
  ⟨⟨by decide, C9_rng_failure_fallback 100 1 Cost.zero (by decide)⟩,
    ⟨by decide, C9_rng_failure_fallback 255 0 Cost.zero (by decide)⟩⟩

/-- Claim C10 (confirmed): when the message needs more bits than there are
pixels, `GetOptimalChanges` returns the (unmodified) copy of the input
pixel vector instead of signalling an error; in this pure model value
equality also captures that the input slice itself is never mutated — the
source writes only into the fresh `result` copy. -/
theorem C10_overflow_copy (img msg : List ℕ) (costs : CostMap)
    (rng : ℕ → Option ℕ) (h : img.length < 8 * msg.length) :
    GetOptimalChanges img msg costs rng = img :=
  GetOptimalChanges_overflow img msg costs rng (by omega)

theorem C10_overflow_copy_witness :
    ([1, 2] : List ℕ).length < 8 * ([7] : List ℕ).length ∧
    GetOptimalChanges [1, 2] [7] (CostMap.mk 0 0 (fun _ => Cost.zero)) rngNone
      = [1, 2] :=
  ⟨by decide, C10_overflow_copy [1, 2] [7] _ rngNone (by decide)⟩

/-- Claim C5 (confirmed): `AdvancedEncode` fails with the capacity error
exactly when `8·(8+L) > W·H` (whatever the carrier format); in particular,
with a PNG carrier of at least 64 pixels, a payload of `⌊W·H/8⌋ - 8` bytes
succeeds and a payload one byte longer fails with the capacity error. -/
theorem C5_capacity (img : Image) (fmt : String) (data : List ℕ)
    (rng : ℕ → Option ℕ) :
    (AdvancedEncode img fmt data rng = .error .capacityExceeded ↔
      img.width * img.height < 8 * (8 + data.length)) ∧
    (64 ≤ img.width * img.height →
      data.length = img.width * img.height / 8 - 8 → fmt = "png" →
      ∃ stego, AdvancedEncode img fmt data rng = .ok stego) ∧
    (data.length = img.width * img.height / 8 - 8 + 1 →
      AdvancedEncode img fmt data rng = .error .capacityExceeded) := by
  refine ⟨(AdvancedEncode_capacity_iff img fmt data rng).trans (by omega), ?_, ?_⟩
  · intro h64 hlen hfmt
    exact ⟨_, AdvancedEncode_ok img fmt data rng (by omega) (Or.inl hfmt)⟩
  · intro hlen
    exact (AdvancedEncode_capacity_iff img fmt data rng).mpr (by omega)

theorem C5_capacity_witness :
    ((AdvancedEncode imgCap "png" [5] rngSome = .error .capacityExceeded ↔
      imgCap.width * imgCap.height < 8 * (8 + ([5] : List ℕ).length)) ∧
    (64 ≤ imgCap.width * imgCap.height →
      ([5] : List ℕ).length = imgCap.width * imgCap.height / 8 - 8 → "png" = "png" →
      ∃ stego, AdvancedEncode imgCap "png" [5] rngSome = .ok stego) ∧
    (([5] : List ℕ).length = imgCap.width * imgCap.height / 8 - 8 + 1 →
      AdvancedEncode imgCap "png" [5] rngSome = .error .capacityExceeded)) :=
  C5_capacity imgCap "png" [5] rngSome

/-- Claim C7 (confirmed): `CalculateCosts` assigns the `MaxFloat64`
sentinel (the spec's +∞) to every border pixel — `x = 0`, `x = W-1`,
`y = 0` or `y = H-1` — and in particular `cost(0,0)` is the sentinel on
the 10×10 scenario-E2 image. -/
theorem C7_border_costs (img : Image) (channel x y : ℕ)
    (hx : x < img.width) (hy : y < img.height)
    (hb : x = 0 ∨ x = img.width - 1 ∨ y = 0 ∨ y = img.height - 1) :
    (CalculateCosts img channel).get x y = Cost.inf ∧
    (CalculateCosts imgE2 1).get 0 0 = Cost.inf := by
  constructor
  · unfold CalculateCosts CostMap.get
    dsimp only
    rw [rowmajor_mod _ _ _ hx, rowmajor_div _ _ _ hx]
    rw [if_pos hb]
  · decide

theorem C7_border_costs_witness :
    ((0 : ℕ) < imgE2.width ∧ (5 : ℕ) < imgE2.height ∧
      ((0 : ℕ) = 0 ∨ (0 : ℕ) = imgE2.width - 1 ∨ (5 : ℕ) = 0 ∨
        (5 : ℕ) = imgE2.height - 1)) ∧
    ((CalculateCosts imgE2 1).get 0 5 = Cost.inf ∧
      (CalculateCosts imgE2 1).get 0 0 = Cost.inf) :=
  ⟨⟨by decide, by decide, by decide⟩,
    C7_border_costs imgE2 1 0 5 (by decide) (by decide) (by decide)⟩

/-- Claim C4 (code bug): the position order that `GetOptimalChanges` and
`AdvancedDecode` share (`orderByCost`, Go `sort.Slice` = unstable pdqsort)
does NOT break ties by ascending raster index.  On the 4×4 constant raster
every interior cost is equal and every border cost is equal, yet the
computed order opens `5, 10, 9, 6` (ascending would be `5, 6, 9, 10`) and
continues `8, 4, 3, 7, 0, …` on the equal-cost borders.  Encoder and
decoder still agree (same code, same input), but the spec's §4.2 tie-break
contract is not implemented — the spec itself flags this in §9.2. -/
theorem C4_tie_break_violated :
    (orderByCost (img4const.width * img4const.height)
        (CalculateCosts img4const 1).costs).map pixelCost.pos
      = [5, 10, 9, 6, 8, 4, 3, 7, 0, 2, 1, 11, 12, 13, 14, 15] ∧
    (CalculateCosts img4const 1).costs 9 = (CalculateCosts img4const 1).costs 10 ∧
    (CalculateCosts img4const 1).costs 4 = (CalculateCosts img4const 1).costs 8 := by
  decide

/-- The code's `i`-then-`j` float accumulation of the Sobel gradients
agrees with the spec's closed double-sum formula (exact integer sums). -/
theorem gxAt_eq_gxSpec (img : Image) (channel x y : ℕ) :
    gxAt img channel x y = gxSpec img channel x y := by
  unfold gxAt gxSpec
  rw [show List.range 3 = [0, 1, 2] from rfl]
  simp only [List.foldl, Finset.sum_range_succ, Finset.sum_range_zero]
  ring

theorem gyAt_eq_gySpec (img : Image) (channel x y : ℕ) :
    gyAt img channel x y = gySpec img channel x y := by
  unfold gyAt gySpec
  rw [show List.range 3 = [0, 1, 2] from rfl]
  simp only [List.foldl, Finset.sum_range_succ, Finset.sum_range_zero]
  ring

/-- Claim C8 (confirmed): at every interior pixel, the stored cost denotes
`1/(√(gx²+gy²) + ε)` with `gx`, `gy` the spec's Sobel sums (§4.1), and the
cost map is a pure, deterministic function of the selected reference
channel alone.  (`epsilon` is modelled from the spec: its defining Go
declaration is not among the provided sources.) -/
theorem C8_interior_cost (img : Image) (channel x y : ℕ)
    (hx1 : 1 ≤ x) (hx2 : x + 1 < img.width) (hy1 : 1 ≤ y) (hy2 : y + 1 < img.height) :
    ((CalculateCosts img channel).get x y).toReal
      = 1 / (Real.sqrt ((gxSpec img channel x y ^ 2 + gySpec img channel x y ^ 2 : ℤ) : ℝ)
          + epsilon) ∧
    (∀ img' : Image, img'.width = img.width → img'.height = img.height →
      (∀ u v, getChannelValue img' u v channel = getChannelValue img u v channel) →
      CalculateCosts img' channel = CalculateCosts img channel) := by
  constructor
  · unfold CalculateCosts CostMap.get
    dsimp only
    rw [rowmajor_mod _ _ _ (by omega), rowmajor_div _ _ _ (by omega)]
    rw [if_neg (by omega)]
    have hg : gradSq img channel x y
        = gxSpec img channel x y ^ 2 + gySpec img channel x y ^ 2 := by
      unfold gradSq
      rw [gxAt_eq_gxSpec, gyAt_eq_gySpec]
      ring
    rw [hg]
    rfl
  · intro img' hw hh hch
    exact CalculateCosts_congr img' img channel hw hh hch

theorem C8_interior_cost_witness :
    ((1 : ℕ) ≤ 4 ∧ (4 : ℕ) + 1 < imgE2.width ∧ (1 : ℕ) ≤ 5 ∧
      (5 : ℕ) + 1 < imgE2.height) ∧
    (((CalculateCosts imgE2 1).get 4 5).toReal
      = 1 / (Real.sqrt ((gxSpec imgE2 1 4 5 ^ 2 + gySpec imgE2 1 4 5 ^ 2 : ℤ) : ℝ)
          + epsilon) ∧
    (∀ img' : Image, img'.width = imgE2.width → img'.height = imgE2.height →
      (∀ u v, getChannelValue img' u v 1 = getChannelValue imgE2 u v 1) →
      CalculateCosts img' 1 = CalculateCosts imgE2 1)) :=
  ⟨⟨by decide, by decide, by decide, by decide⟩,
    C8_interior_cost imgE2 1 4 5 (by decide) (by decide) (by decide) (by decide)⟩

/-- Claim C2 (confirmed): the raster a successful `AdvancedEncode` hands to
the PNG serializer agrees with the carrier on the Green, Blue and Alpha
channels at every in-bounds pixel; only Red may differ. -/
theorem C2_channel_preservation (img : Image) (fmt : String) (data : List ℕ)
    (rng : ℕ → Option ℕ) (stego : Image)
    (h : AdvancedEncode img fmt data rng = .ok stego) (x y : ℕ)
    (hx : x < img.width) (hy : y < img.height) :
    (stego.pix x y).g = (img.pix x y).g ∧
    (stego.pix x y).b = (img.pix x y).b ∧
    (stego.pix x y).a = (img.pix x y).a := by
  obtain ⟨-, -, hstego⟩ := AdvancedEncode_ok_inv h
  rw [hstego]
  rw [encode_stego_pix img data rng x y hx hy]
  exact ⟨rfl, rfl, rfl⟩

set_option maxRecDepth 4000 in
set_option maxHeartbeats 4000000 in
theorem C2_channel_preservation_witness :
    AdvancedEncode imgRT "png" [] rngNone
      = .ok (exOkImage (AdvancedEncode imgRT "png" [] rngNone) imgRT) ∧
    (((exOkImage (AdvancedEncode imgRT "png" [] rngNone) imgRT).pix 2 3).g
        = (imgRT.pix 2 3).g ∧
      ((exOkImage (AdvancedEncode imgRT "png" [] rngNone) imgRT).pix 2 3).b
        = (imgRT.pix 2 3).b ∧
      ((exOkImage (AdvancedEncode imgRT "png" [] rngNone) imgRT).pix 2 3).a
        = (imgRT.pix 2 3).a) := by
  have hEnc : AdvancedEncode imgRT "png" [] rngNone
      = .ok (exOkImage (AdvancedEncode imgRT "png" [] rngNone) imgRT) := by decide
  exact ⟨hEnc, C2_channel_preservation imgRT "png" [] rngNone _ hEnc 2 3
    (by decide) (by decide)⟩

/-- Claim C1 (corrected): the round trip holds for every non-empty payload
(`1 ≤ L`, bytes below 256, the Go-representable regime `8·(8+L) < 2^63`)
on a carrier with `W·H ≥ 64 + 8L`; the original claim's `L = 0` case
fails — see the counterexample. -/
theorem C1_round_trip (img : Image) (data : List ℕ) (rng : ℕ → Option ℕ)
    (h1 : 1 ≤ data.length) (h2 : 8 * (8 + data.length) < 2 ^ 63)
    (h3 : 64 + 8 * data.length ≤ img.width * img.height)
    (h4 : ∀ byt ∈ data, byt < 256) :
    ∃ stego, AdvancedEncode img "png" data rng = .ok stego ∧
      AdvancedDecode stego = .ok data := by
  refine ⟨_, AdvancedEncode_ok img "png" data rng (by omega) (Or.inl rfl), ?_⟩
  exact encode_decode_roundtrip img data rng _ h1 h2 h4
    (AdvancedEncode_ok img "png" data rng (by omega) (Or.inl rfl))

theorem C1_round_trip_witness :
    ((1 : ℕ) ≤ ([42] : List ℕ).length ∧
      8 * (8 + ([42] : List ℕ).length) < 2 ^ 63 ∧
      64 + 8 * ([42] : List ℕ).length ≤ imgCap.width * imgCap.height ∧
      ∀ byt ∈ ([42] : List ℕ), byt < 256) ∧
    ∃ stego, AdvancedEncode imgCap "png" [42] rngSome = .ok stego ∧
      AdvancedDecode stego = .ok [42] :=
  ⟨⟨by decide, by decide, by decide, by decide⟩,
    C1_round_trip imgCap [42] rngSome (by decide) (by decide) (by decide)
      (by decide)⟩

set_option maxRecDepth 4000 in
set_option maxHeartbeats 4000000 in
/-- Claim C1 counterexample: with the empty payload (`L = 0`) on an 8×8
carrier — which satisfies the claim's capacity premise `W·H ≥ 64 + 8L` —
encoding succeeds but decoding rejects the all-zero header as corrupt, so
`AdvancedDecode (AdvancedEncode I D) = D` fails at `D = []`. -/
theorem C1_empty_payload_fails :
    64 + 8 * ([] : List ℕ).length ≤ imgRT.width * imgRT.height ∧
    (AdvancedEncode imgRT "png" [] rngNone).toOption.map AdvancedDecode
      = some (Except.error DecodeError.corruptHeader) := by
  constructor
  · decide
  · decide

/-- Claim C6 (corrected): `AdvancedDecode` returns the corrupt-header
error exactly when the reconstructed 64-bit length `L` is zero or the
total bit count computed in Go's `uint64` arithmetic — `(64 + 8·L mod
2^64) mod 2^64` — exceeds `W·H`.  Under exact integer arithmetic the claim
fails: an overflowed `8·L` can pass the check, after which the decoder
hits a runtime panic instead (counterexample below). -/
theorem C6_corrupt_header_iff (img : Image) (h64 : 64 ≤ img.width * img.height) :
    AdvancedDecode img = .error DecodeError.corruptHeader ↔
      (decodedHeaderLen img = 0 ∨
        img.width * img.height < (64 + decodedHeaderLen img * 8 % 2 ^ 64) % 2 ^ 64) := by
  unfold AdvancedDecode
  dsimp only
  rw [show headerSize * 8 = 64 from rfl]
  rw [if_neg (by omega : ¬ img.width * img.height < 64)]
  split
  · next hcond => exact ⟨fun _ => hcond, fun _ => rfl⟩
  · next hcond =>
    constructor
    · intro hEq
      exfalso
      split at hEq
      · exact DecodeError.noConfusion (Except.error.inj hEq)
      · split at hEq
        · exact DecodeError.noConfusion (Except.error.inj hEq)
        · split at hEq
          · exact DecodeError.noConfusion (Except.error.inj hEq)
          · exact Except.noConfusion hEq
    · intro hc
      exact absurd hc hcond

theorem C6_corrupt_header_iff_witness :
    (64 : ℕ) ≤ imgC6.width * imgC6.height ∧
    (AdvancedDecode imgC6 = .error DecodeError.corruptHeader ↔
      (decodedHeaderLen imgC6 = 0 ∨
        imgC6.width * imgC6.height
          < (64 + decodedHeaderLen imgC6 * 8 % 2 ^ 64) % 2 ^ 64)) :=
  ⟨by decide, C6_corrupt_header_iff imgC6 (by decide)⟩

set_option maxRecDepth 4000 in
set_option maxHeartbeats 4000000 in
/-- Claim C6 counterexample: on the crafted 72-pixel raster the extracted
header length is `L = 2^61`, for which exact arithmetic gives
`8·(8+L) > 72`, so the claim demands the corrupt-header error; the code's
`uint64` multiplication overflows to `totalBits = 64 ≤ 72`, the check
passes, and the decoder instead dies with a runtime panic (`make` length
out of range / out-of-range index). -/
theorem C6_uint64_overflow_counterexample :
    decodedHeaderLen imgC6 = 2 ^ 61 ∧
    imgC6.width * imgC6.height = 72 ∧
    72 < 8 * (8 + 2 ^ 61) ∧
    AdvancedDecode imgC6 = .error DecodeError.runtimePanic := by
  refine ⟨by decide, by decide, by decide, by decide⟩
